import Mathlib

/-!
# HEAAN `Scheme.cpp`: a shallow embedding and its verified properties

The ring `Z[X]/(X^N+1)` is represented by coefficient vectors of length `N`;
`Scheme` operations are pure functions on ciphers, with the in-place
(`AndEqual`) variants returning the new state of their first argument.
-/

namespace HEAAN

/-! ## Polynomials of `Z[X]/(X^N+1)` -/

/-- Modelled from the spec: `Poly`, "an ordered sequence of N multi-precision
integer coefficients (index i = coefficient of X^i)" (the `ZZX` values that
`Scheme.cpp` passes to `Ring2Utils` with `degree = params.N`). -/
@[ext]
structure Poly (N : Nat) where
  coeff : Fin N → Int

instance instDecidableEqPoly (N : Nat) : DecidableEq (Poly N) :=
  fun x y => decidable_of_iff (x.coeff = y.coeff) (by
    constructor
    · intro h
      exact Poly.ext h
    · intro h
      rw [h])

/-- Coefficient of `X^k` in the monomial `X^n` reduced modulo `X^N+1`:
`X^n = (-1)^(n / N) * X^(n % N)`. -/
def negaWeight (N : Nat) (n : Int) (k : Fin N) : Int :=
  if n % (N : Int) = (k.val : Int) then (if (n / (N : Int)) % 2 = 0 then 1 else -1) else 0

namespace Poly

variable {N : Nat}

instance instZeroPoly : Zero (Poly N) := ⟨⟨fun _ => 0⟩⟩

instance instOnePoly : One (Poly N) := ⟨⟨fun i => if i.val = 0 then 1 else 0⟩⟩

instance instAddPoly : Add (Poly N) := ⟨fun x y => ⟨fun i => x.coeff i + y.coeff i⟩⟩

instance instNegPoly : Neg (Poly N) := ⟨fun x => ⟨fun i => - x.coeff i⟩⟩

instance instSubPoly : Sub (Poly N) := ⟨fun x y => ⟨fun i => x.coeff i - y.coeff i⟩⟩

/-- Modelled from the spec: the product of `Z[X]/(X^N+1)` ("all arithmetic is
performed modulo X^N+1"): the coefficient of `X^k` collects `x_i * y_j` over
all `i, j`, with the sign of the negacyclic wrap-around. -/
instance instMulPoly : Mul (Poly N) :=
  ⟨fun x y => ⟨fun k => ∑ i : Fin N, ∑ j : Fin N,
    negaWeight N ((i.val : Int) + (j.val : Int)) k * (x.coeff i * y.coeff j)⟩⟩

/-- Coefficient-wise reduction modulo `q` (representatives in `[0, q)` for `q > 0`). -/
def modq (x : Poly N) (q : Int) : Poly N := ⟨fun i => x.coeff i % q⟩

/-- The write `x.rep[idx] = v` on a polynomial of `N` coefficients; `none`
when `idx` is not one of the indices `0..N-1`. -/
def setAt (x : Poly N) (idx : Int) (v : Int) : Option (Poly N) :=
  if 0 ≤ idx ∧ idx < (N : Int) then
    some ⟨fun k => if (k.val : Int) = idx then v else x.coeff k⟩
  else none

/-- The read `x.rep[idx]` on a polynomial of `N` coefficients; `none` when
`idx` is not one of the indices `0..N-1`. -/
def getAt (x : Poly N) (idx : Int) : Option Int :=
  if h : 0 ≤ idx ∧ idx < (N : Int) then some (x.coeff ⟨idx.toNat, by omega⟩) else none

end Poly

/-- Coefficient-wise congruence modulo `q` of two elements of `Z[X]/(X^N+1)`. -/
def PolyModEq {N : Nat} (q : Int) (x y : Poly N) : Prop :=
  ∀ i : Fin N, x.coeff i ≡ y.coeff i [ZMOD q]

instance instDecidablePolyModEq {N : Nat} (q : Int) (x y : Poly N) :
    Decidable (PolyModEq q x y) :=
  inferInstanceAs (Decidable (∀ i : Fin N, x.coeff i % q = y.coeff i % q))

/-! ## `Ring2Utils`: the ring arithmetic that `Scheme.cpp` consumes -/

namespace Ring2Utils

variable {N : Nat}

/-- Modelled from the spec: `add(out, x, y, q)`, the sum of `x` and `y` in
`Z_q[X]/(X^N+1)` (`Ring2Utils` is not part of `Scheme.cpp`). -/
def add (p1 p2 : Poly N) (mod : Int) : Poly N := (p1 + p2).modq mod

/-- Modelled from the spec: `addAndEqual(x, y, q)`, the new value of `x`. -/
def addAndEqual (p1 p2 : Poly N) (mod : Int) : Poly N := (p1 + p2).modq mod

/-- Modelled from the spec: `sub(out, x, y, q)`, the difference in `Z_q[X]/(X^N+1)`. -/
def sub (p1 p2 : Poly N) (mod : Int) : Poly N := (p1 - p2).modq mod

/-- Modelled from the spec: `subAndEqual(x, y, q)`, the new value of `x`. -/
def subAndEqual (p1 p2 : Poly N) (mod : Int) : Poly N := (p1 - p2).modq mod

/-- Modelled from the spec: `mult(out, x, y, q)`, the product in `Z_q[X]/(X^N+1)`. -/
def mult (p1 p2 : Poly N) (mod : Int) : Poly N := (p1 * p2).modq mod

/-- Modelled from the spec: `multAndEqual(x, y, q)`, the new value of `x`. -/
def multAndEqual (p1 p2 : Poly N) (mod : Int) : Poly N := (p1 * p2).modq mod

/-- Modelled from the spec: `square(out, x, q)`, the square in `Z_q[X]/(X^N+1)`. -/
def square (p : Poly N) (mod : Int) : Poly N := (p * p).modq mod

/-- Modelled from the spec: `multByConst(out, x, k, q)`, "scale coefficient-wise
by k then reduce mod q". -/
def multByConst (p : Poly N) (cnst : Int) (mod : Int) : Poly N :=
  ⟨fun i => (p.coeff i * cnst) % mod⟩

/-- Modelled from the spec: `multByConstAndEqual(x, k, q)`, the new value of `x`. -/
def multByConstAndEqual (p : Poly N) (cnst : Int) (mod : Int) : Poly N :=
  ⟨fun i => (p.coeff i * cnst) % mod⟩

/-- Modelled from the spec: `multByMonomial(out, x, d)`, "multiply by X^d,
sign-flip on negacyclic wrap". -/
def multByMonomial (p : Poly N) (monomialDeg : Int) : Poly N :=
  ⟨fun k => ∑ i : Fin N, negaWeight N ((i.val : Int) + monomialDeg) k * p.coeff i⟩

/-- Modelled from the spec: `multByMonomialAndEqual(x, d)`, the new value of `x`. -/
def multByMonomialAndEqual (p : Poly N) (monomialDeg : Int) : Poly N :=
  ⟨fun k => ∑ i : Fin N, negaWeight N ((i.val : Int) + monomialDeg) k * p.coeff i⟩

/-- Modelled from the spec: `inpower(out, x, t, q)`, "substitute X ↦ X^t, reduce
mod X^N+1 and mod q". -/
def inpower (p : Poly N) (pow : Int) (mod : Int) : Poly N :=
  ⟨fun k => (∑ i : Fin N, negaWeight N ((i.val : Int) * pow) k * p.coeff i) % mod⟩

/-- Modelled from the spec: `conjugate(out, x)`, the "permutation implementing
X ↦ X^(N−1); no modulus reduction". -/
def conjugate (p : Poly N) : Poly N :=
  ⟨fun k => ∑ i : Fin N, negaWeight N ((i.val : Int) * ((N : Int) - 1)) k * p.coeff i⟩

/-- Modelled from the spec: `rightShift(out, x, b)`, "arithmetic right shift of
every coefficient by b bits" (rounding toward −∞). -/
def rightShift (p : Poly N) (bits : Int) : Poly N :=
  ⟨fun i => p.coeff i >>> bits.toNat⟩

/-- Modelled from the spec: `rightShiftAndEqual(x, b)`, the new value of `x`. -/
def rightShiftAndEqual (p : Poly N) (bits : Int) : Poly N :=
  ⟨fun i => p.coeff i >>> bits.toNat⟩

/-- Modelled from the spec: `leftShift(out, x, b, logq, N)`, "multiply by 2^bits,
mod q_level" with `q_level = 2^logq`. -/
def leftShift (p : Poly N) (bits : Int) (logMod : Int) : Poly N :=
  ⟨fun i => (p.coeff i * 2 ^ bits.toNat) % 2 ^ logMod.toNat⟩

/-- Modelled from the spec: `leftShiftAndEqual(x, b, logq, N)`, the new value of `x`. -/
def leftShiftAndEqual (p : Poly N) (bits : Int) (logMod : Int) : Poly N :=
  ⟨fun i => (p.coeff i * 2 ^ bits.toNat) % 2 ^ logMod.toNat⟩

/-- Modelled from the spec: `doubleAndEqual(x, logq, N)`, multiply by 2, mod
`2^logq`; the new value of `x`. -/
def doubleAndEqual (p : Poly N) (logMod : Int) : Poly N :=
  ⟨fun i => (2 * p.coeff i) % 2 ^ logMod.toNat⟩

/-- Modelled from the spec: `truncate(out, x, logq_new)`, "centre-representative
coefficients into the range of modulus 2^logq_new": every coefficient is
replaced by its centred representative modulo `2^logq_new`. -/
def truncate (p : Poly N) (logMod : Int) : Poly N :=
  ⟨fun i => Int.bmod (p.coeff i) (2 ^ logMod.toNat)⟩

/-- Modelled from the spec: `truncateAndEqual(x, logq_new)`, the new value of `x`. -/
def truncateAndEqual (p : Poly N) (logMod : Int) : Poly N :=
  ⟨fun i => Int.bmod (p.coeff i) (2 ^ logMod.toNat)⟩

end Ring2Utils

/-! ## NTL and `<cmath>` primitives called directly by `Scheme.cpp` -/

/-- NTL `AddMod(x, a, b, n)` (`NTL/ZZ.h`), documented as `x = (a+b)%n` for
`n > 1` and operands "assumed to be in the range 0..n-1": it forms `a + b` and
subtracts `n` once when the sum has reached `n`, so that outside that range
the result is not reduced. -/
def AddMod (a b n : Int) : Int := if n ≤ a + b then a + b - n else a + b

/-- Floor of the binary logarithm of a natural number (`0` for `0` and `1`),
by halving at most `fuel` times. -/
def log2Nat : Nat → Nat → Nat
  | 0, _ => 0
  | fuel + 1, n => if 2 ≤ n then log2Nat fuel (n / 2) + 1 else 0

/-- `long l = log2(x)`: the `<cmath>` logarithm truncated to `long`, for a
`long` argument `x ≥ 1`. For `x ≤ 0` (logarithm `−∞` or NaN) the value is `0`
here: a loop `for (i = 0; i < l; ++i)` then runs no iteration. -/
def log2 (x : Int) : Int := (log2Nat x.toNat x.toNat : Nat)

/-- NTL `bit(a, k)`: bit `k` of `|a|`. -/
def bit (a : Int) (k : Int) : Bool := 0 ≤ k && a.natAbs.testBit k.toNat

/-! ## Data model -/

/-- Modelled from the spec: `CZZ = (r, i)`, a Gaussian integer;
"`conjugate` negates i". -/
structure CZZ where
  r : Int
  i : Int

instance instDecidableEqCZZ : DecidableEq CZZ :=
  fun x y => decidable_of_iff (x.r = y.r ∧ x.i = y.i) (by
    cases x
    cases y
    simp)

/-- Modelled from the spec: `CZZ::conjugate`. -/
def CZZ.conjugate (z : CZZ) : CZZ := ⟨z.r, -z.i⟩

/-- Modelled from the spec: `Params`, the fields that `Scheme.cpp` reads;
the tables `qi`, `Pqi`, `rotGroup`, `rotGroupInv` map an index to its entry,
and `params.N` is the length `N` of the polynomials. -/
structure Params where
  logp : Int
  logq : Int
  L : Int
  logP : Int
  Nh : Int
  logNh : Int
  q : Int
  qi : Int → Int
  Pqi : Int → Int
  rotGroup : Int → Int → Int
  rotGroupInv : Int → Int → Int

/-- Modelled from the spec: the public key material read by `Scheme.cpp`. -/
structure PubKey (N : Nat) where
  ax : Poly N
  bx : Poly N
  axStar : Poly N
  bxStar : Poly N
  axConj : Poly N
  bxConj : Poly N
  axKeySwitch : Int → Poly N
  bxKeySwitch : Int → Poly N

/-- Modelled from the spec: the secret key `sx`. -/
structure SecKey (N : Nat) where
  sx : Poly N

/-- Modelled from the spec: `Message = (mx, slots, level)`. -/
structure Message (N : Nat) where
  mx : Poly N
  slots : Int
  level : Int

instance instDecidableEqMessage (N : Nat) : DecidableEq (Message N) :=
  fun x y => decidable_of_iff (x.mx = y.mx ∧ x.slots = y.slots ∧ x.level = y.level) (by
    cases x
    cases y
    simp)

/-- Modelled from the spec: `Cipher = (ax, bx, slots, level)`. -/
structure Cipher (N : Nat) where
  ax : Poly N
  bx : Poly N
  slots : Int
  level : Int

instance instDecidableEqCipher (N : Nat) : DecidableEq (Cipher N) :=
  fun x y => decidable_of_iff
    (x.ax = y.ax ∧ x.bx = y.bx ∧ x.slots = y.slots ∧ x.level = y.level) (by
    cases x
    cases y
    simp)

/-! ## `Scheme` -/

namespace Scheme

variable {N : Nat}

def getqi (params : Params) (level : Int) : Int :=
  params.qi (params.L - level)

def getPqi (params : Params) (level : Int) : Int :=
  params.Pqi (params.L - level)

def getLogqi (params : Params) (level : Int) : Int :=
  params.logq - params.logp * (level - 1)

/-- The loop `while(2 * m > qi) m -= qi;` of `trueValue`, run with `fuel`:
`none` when the loop has not left after `fuel` subtractions. -/
def trueValueSubLoop : Nat → Int → Int → Option Int
  | 0, m, qi => if 2 * m > qi then none else some m
  | fuel + 1, m, qi => if 2 * m > qi then trueValueSubLoop fuel (m - qi) qi else some m

/-- The loop `while(2 * m < -qi) m += qi;` of `trueValue`, run with `fuel`:
`none` when the loop has not left after `fuel` additions. -/
def trueValueAddLoop : Nat → Int → Int → Option Int
  | 0, m, qi => if 2 * m < -qi then none else some m
  | fuel + 1, m, qi => if 2 * m < -qi then trueValueAddLoop fuel (m + qi) qi else some m

/-- `trueValue(ZZ& m, ZZ& qi)`: the value left in `m`; each loop has `fuel`. -/
def trueValue (fuel : Nat) (m qi : Int) : Option Int :=
  (trueValueSubLoop fuel m qi).bind fun m => trueValueAddLoop fuel m qi

/-- `trueValue(CZZ& m, ZZ& qi)`: the value left in `m`; each loop has `fuel`. -/
def trueValueCZZ (fuel : Nat) (m : CZZ) (qi : Int) : Option CZZ :=
  (trueValueSubLoop fuel m.r qi).bind fun r =>
  (trueValueAddLoop fuel r qi).bind fun r =>
  (trueValueSubLoop fuel m.i qi).bind fun i =>
  (trueValueAddLoop fuel i qi).bind fun i =>
  some ⟨r, i⟩

/-- `rlweInstance(ax, bx, qi)`; `vx` is the polynomial drawn by `NumUtils::sampleZO`. -/
def rlweInstance (publicKey : PubKey N) (vx : Poly N) (qi : Int) : Poly N × Poly N :=
  let ax := Ring2Utils.mult vx publicKey.ax qi
  let bx := Ring2Utils.mult vx publicKey.bx qi
  (ax, bx)

/-- `groupidx(CZZ*& vals, long slots)`; an array is the map from an index to
its entry, and `new CZZ[n]` holds zeros. -/
def groupidx (params : Params) (vals : Int → CZZ) (slots : Int) : Int → CZZ :=
  let res : Int → CZZ := fun _ => ⟨0, 0⟩
  let logslots := log2 slots
  (List.range slots.toNat).foldl
    (fun (res : Int → CZZ) (i : Nat) =>
      let res := Function.update res
        (Int.tdiv (params.rotGroup logslots (i : Int) - 1) 2) (vals (i : Int))
      let res := Function.update res
        (Int.tdiv (params.rotGroupInv logslots (i : Int) - 1) 2) (vals (i : Int)).conjugate
      res)
    res

/-- The overload `groupidx(CZZ& val)` for a single value. -/
def groupidxSingle (val : CZZ) : Int → CZZ :=
  let res : Int → CZZ := fun _ => ⟨0, 0⟩
  let res := Function.update res 0 val
  let res := Function.update res 1 val.conjugate
  res

def degroupidx (params : Params) (vals : Int → CZZ) (slots : Int) : Int → CZZ :=
  let logslots := log2 slots
  let res : Int → CZZ := fun _ => ⟨0, 0⟩
  (List.range slots.toNat).foldl
    (fun (res : Int → CZZ) (i : Nat) =>
      Function.update res (i : Int)
        (vals (Int.tdiv (params.rotGroup logslots (i : Int) - 1) 2)))
    res

/-- `encode(CZZ*& vals, long slots)`. `NumUtils::fftSpecialInv` is not part of
`Scheme.cpp`: it is the parameter `fftSpecialInv`, applied to `vals`,
`doubleslots` and `params.logp` (the table `aux.ksiPows` is fixed inside it).
`Message(mx, slots)` takes the default level, `1`. -/
def encode (fftSpecialInv : (Int → CZZ) → Int → Int → (Int → CZZ)) (params : Params)
    (vals : Int → CZZ) (slots : Int) : Option (Message N) :=
  let mx : Poly N := 0
  let idx : Int := 0
  let doubleslots := slots * 2
  let logDoubleslots := log2 slots + 1
  let gap := (N : Int) >>> logDoubleslots.toNat
  let fftInv := fftSpecialInv vals doubleslots params.logp
  ((List.range doubleslots.toNat).foldlM
    (fun (st : Poly N × Int) (i : Nat) =>
      (st.1.setAt st.2 (fftInv (i : Int)).r).map fun mx => (mx, st.2 + gap))
    (mx, idx)).map fun st => ⟨st.1, slots, 1⟩

def encryptMsg (params : Params) (publicKey : PubKey N) (vx : Poly N)
    (msg : Message N) (level : Int) : Cipher N :=
  let qi := getqi params level
  let axbx := rlweInstance publicKey vx qi
  let bx := Ring2Utils.add msg.mx axbx.2 qi
  ⟨axbx.1, bx, msg.slots, level⟩

def decryptMsg (params : Params) (secretKey : SecKey N) (cipher : Cipher N) : Message N :=
  let qi := getqi params cipher.level
  let mx := Ring2Utils.mult cipher.ax secretKey.sx qi
  let mx := Ring2Utils.addAndEqual mx cipher.bx qi
  ⟨mx, cipher.slots, cipher.level⟩

/-- The array `fftinv` that `decode(Message& msg)` builds and hands to
`NumUtils::fftSpecial`; each loop of `trueValue` has `fuel`. -/
def decodeValues (fuel : Nat) (params : Params) (msg : Message N) : Option (Int → CZZ) :=
  let doubleslots := msg.slots * 2
  let fftinv : Int → CZZ := fun _ => ⟨0, 0⟩
  let qi := getqi params msg.level
  let idx : Int := 0
  let gap := Int.tdiv (N : Int) doubleslots
  ((List.range doubleslots.toNat).foldlM
    (fun (st : (Int → CZZ) × Int) (i : Nat) =>
      (msg.mx.getAt st.2).bind fun r =>
      (trueValueCZZ fuel ⟨r, 0⟩ qi).map fun c =>
      (Function.update st.1 (i : Int) c, st.2 + gap))
    (fftinv, idx)).map fun st => st.1

/-- `decode(Message& msg)`. `NumUtils::fftSpecial` is not part of `Scheme.cpp`:
it is the parameter `fftSpecial`, applied to `fftinv`, `doubleslots` and
`params.logp` (the table `aux.ksiPows` is fixed inside it). -/
def decode (fftSpecial : (Int → CZZ) → Int → Int → (Int → CZZ)) (fuel : Nat)
    (params : Params) (msg : Message N) : Option (Int → CZZ) :=
  (decodeValues fuel params msg).map fun fftinv =>
    fftSpecial fftinv (msg.slots * 2) params.logp

def add (params : Params) (cipher1 cipher2 : Cipher N) : Cipher N :=
  let qi := getqi params cipher1.level
  let ax := Ring2Utils.add cipher1.ax cipher2.ax qi
  let bx := Ring2Utils.add cipher1.bx cipher2.bx qi
  ⟨ax, bx, cipher1.slots, cipher1.level⟩

def addAndEqual (params : Params) (cipher1 cipher2 : Cipher N) : Cipher N :=
  let qi := getqi params cipher1.level
  let cipher1 := { cipher1 with ax := Ring2Utils.addAndEqual cipher1.ax cipher2.ax qi }
  let cipher1 := { cipher1 with bx := Ring2Utils.addAndEqual cipher1.bx cipher2.bx qi }
  cipher1

/-- `addConst`: `bx.rep[0]` becomes `AddMod(cipher.bx.rep[0], cnst, qi)`;
`normalize` strips leading zero coefficients and leaves the polynomial as it is. -/
def addConst (params : Params) (cipher : Cipher N) (cnst : Int) : Cipher N :=
  let qi := getqi params cipher.level
  let ax := cipher.ax
  let bx : Poly N :=
    ⟨fun i => if i.val = 0 then AddMod (cipher.bx.coeff i) cnst qi else cipher.bx.coeff i⟩
  ⟨ax, bx, cipher.slots, cipher.level⟩

def addConstAndEqual (params : Params) (cipher : Cipher N) (cnst : Int) : Cipher N :=
  let qi := getqi params cipher.level
  { cipher with bx :=
      ⟨fun i => if i.val = 0 then AddMod (cipher.bx.coeff i) cnst qi else cipher.bx.coeff i⟩ }

def sub (params : Params) (cipher1 cipher2 : Cipher N) : Cipher N :=
  let qi := getqi params cipher1.level
  let ax := Ring2Utils.sub cipher1.ax cipher2.ax qi
  let bx := Ring2Utils.sub cipher1.bx cipher2.bx qi
  ⟨ax, bx, cipher1.slots, cipher1.level⟩

def subAndEqual (params : Params) (cipher1 cipher2 : Cipher N) : Cipher N :=
  let qi := getqi params cipher1.level
  let cipher1 := { cipher1 with ax := Ring2Utils.subAndEqual cipher1.ax cipher2.ax qi }
  let cipher1 := { cipher1 with bx := Ring2Utils.subAndEqual cipher1.bx cipher2.bx qi }
  cipher1

def conjugate (params : Params) (publicKey : PubKey N) (cipher : Cipher N) : Cipher N :=
  let qi := getqi params cipher.level
  let Pqi := getPqi params cipher.level
  let bxconj := Ring2Utils.conjugate cipher.bx
  let bxres := Ring2Utils.conjugate cipher.ax
  let axres := Ring2Utils.mult bxres publicKey.axConj Pqi
  let bxres := Ring2Utils.multAndEqual bxres publicKey.bxConj Pqi
  let axres := Ring2Utils.rightShiftAndEqual axres params.logP
  let bxres := Ring2Utils.rightShiftAndEqual bxres params.logP
  let bxres := Ring2Utils.addAndEqual bxres bxconj qi
  ⟨axres, bxres, cipher.slots, cipher.level⟩

def conjugateAndEqual (params : Params) (publicKey : PubKey N) (cipher : Cipher N) :
    Cipher N :=
  let qi := getqi params cipher.level
  let Pqi := getPqi params cipher.level
  let bxconj := Ring2Utils.conjugate cipher.bx
  let bxres := Ring2Utils.conjugate cipher.ax
  let axres := Ring2Utils.mult bxres publicKey.axConj Pqi
  let bxres := Ring2Utils.multAndEqual bxres publicKey.bxConj Pqi
  let axres := Ring2Utils.rightShiftAndEqual axres params.logP
  let bxres := Ring2Utils.rightShiftAndEqual bxres params.logP
  let bxres := Ring2Utils.addAndEqual bxres bxconj qi
  let cipher := { cipher with ax := axres }
  let cipher := { cipher with bx := bxres }
  cipher

def mult (params : Params) (publicKey : PubKey N) (cipher1 cipher2 : Cipher N) : Cipher N :=
  let qi := getqi params cipher1.level
  let Pqi := getPqi params cipher1.level
  let axbx1 := Ring2Utils.add cipher1.ax cipher1.bx qi
  let axbx2 := Ring2Utils.add cipher2.ax cipher2.bx qi
  let axbx1 := Ring2Utils.multAndEqual axbx1 axbx2 qi
  let bxbx := Ring2Utils.mult cipher1.bx cipher2.bx qi
  let axax := Ring2Utils.mult cipher1.ax cipher2.ax qi
  let axmult := Ring2Utils.mult axax publicKey.axStar Pqi
  let bxmult := Ring2Utils.mult axax publicKey.bxStar Pqi
  let axmult := Ring2Utils.rightShiftAndEqual axmult params.logP
  let bxmult := Ring2Utils.rightShiftAndEqual bxmult params.logP
  let axmult := Ring2Utils.addAndEqual axmult axbx1 qi
  let axmult := Ring2Utils.subAndEqual axmult bxbx qi
  let axmult := Ring2Utils.subAndEqual axmult axax qi
  let bxmult := Ring2Utils.addAndEqual bxmult bxbx qi
  ⟨axmult, bxmult, cipher1.slots, cipher1.level⟩

def multAndEqual (params : Params) (publicKey : PubKey N) (cipher1 cipher2 : Cipher N) :
    Cipher N :=
  let qi := getqi params cipher1.level
  let Pqi := getPqi params cipher1.level
  let axbx1 := Ring2Utils.add cipher1.ax cipher1.bx qi
  let axbx2 := Ring2Utils.add cipher2.ax cipher2.bx qi
  let axbx1 := Ring2Utils.multAndEqual axbx1 axbx2 qi
  let bxbx := Ring2Utils.mult cipher1.bx cipher2.bx qi
  let axax := Ring2Utils.mult cipher1.ax cipher2.ax qi
  let cipher1 := { cipher1 with ax := Ring2Utils.mult axax publicKey.axStar Pqi }
  let cipher1 := { cipher1 with bx := Ring2Utils.mult axax publicKey.bxStar Pqi }
  let cipher1 := { cipher1 with ax := Ring2Utils.rightShiftAndEqual cipher1.ax params.logP }
  let cipher1 := { cipher1 with bx := Ring2Utils.rightShiftAndEqual cipher1.bx params.logP }
  let cipher1 := { cipher1 with ax := Ring2Utils.addAndEqual cipher1.ax axbx1 qi }
  let cipher1 := { cipher1 with ax := Ring2Utils.subAndEqual cipher1.ax bxbx qi }
  let cipher1 := { cipher1 with ax := Ring2Utils.subAndEqual cipher1.ax axax qi }
  let cipher1 := { cipher1 with bx := Ring2Utils.addAndEqual cipher1.bx bxbx qi }
  cipher1

def square (params : Params) (publicKey : PubKey N) (cipher : Cipher N) : Cipher N :=
  let qi := getqi params cipher.level
  let Pqi := getPqi params cipher.level
  let bxbx := Ring2Utils.square cipher.bx qi
  let axbx := Ring2Utils.mult cipher.ax cipher.bx qi
  let axbx := Ring2Utils.addAndEqual axbx axbx qi
  let axax := Ring2Utils.square cipher.ax qi
  let axmult := Ring2Utils.mult axax publicKey.axStar Pqi
  let bxmult := Ring2Utils.mult axax publicKey.bxStar Pqi
  let axmult := Ring2Utils.rightShiftAndEqual axmult params.logP
  let bxmult := Ring2Utils.rightShiftAndEqual bxmult params.logP
  let axmult := Ring2Utils.addAndEqual axmult axbx qi
  let bxmult := Ring2Utils.addAndEqual bxmult bxbx qi
  ⟨axmult, bxmult, cipher.slots, cipher.level⟩

def squareAndEqual (params : Params) (publicKey : PubKey N) (cipher : Cipher N) : Cipher N :=
  let qi := getqi params cipher.level
  let Pqi := getPqi params cipher.level
  let bxbx := Ring2Utils.square cipher.bx qi
  let axbx := Ring2Utils.mult cipher.bx cipher.ax qi
  let axbx := Ring2Utils.addAndEqual axbx axbx qi
  let axax := Ring2Utils.square cipher.ax qi
  let axmult := Ring2Utils.mult axax publicKey.axStar Pqi
  let bxmult := Ring2Utils.mult axax publicKey.bxStar Pqi
  let axmult := Ring2Utils.rightShiftAndEqual axmult params.logP
  let bxmult := Ring2Utils.rightShiftAndEqual bxmult params.logP
  let axmult := Ring2Utils.addAndEqual axmult axbx qi
  let bxmult := Ring2Utils.addAndEqual bxmult bxbx qi
  let cipher := { cipher with bx := bxmult }
  let cipher := { cipher with ax := axmult }
  cipher

def multByConst (params : Params) (cipher : Cipher N) (cnst : Int) : Cipher N :=
  let qi := getqi params cipher.level
  let ax := Ring2Utils.multByConst cipher.ax cnst qi
  let bx := Ring2Utils.multByConst cipher.bx cnst qi
  ⟨ax, bx, cipher.slots, cipher.level⟩

def multByConstAndEqual (params : Params) (cipher : Cipher N) (cnst : Int) : Cipher N :=
  let qi := getqi params cipher.level
  let cipher := { cipher with ax := Ring2Utils.multByConstAndEqual cipher.ax cnst qi }
  let cipher := { cipher with bx := Ring2Utils.multByConstAndEqual cipher.bx cnst qi }
  cipher

def multByMonomial (cipher : Cipher N) (degree : Int) : Cipher N :=
  let ax := Ring2Utils.multByMonomial cipher.ax degree
  let bx := Ring2Utils.multByMonomial cipher.bx degree
  ⟨ax, bx, cipher.slots, cipher.level⟩

def multByMonomialAndEqual (cipher : Cipher N) (degree : Int) : Cipher N :=
  let cipher := { cipher with ax := Ring2Utils.multByMonomialAndEqual cipher.ax degree }
  let cipher := { cipher with bx := Ring2Utils.multByMonomialAndEqual cipher.bx degree }
  cipher

def leftShift (params : Params) (cipher : Cipher N) (bits : Int) : Cipher N :=
  let logqi := getLogqi params cipher.level
  let ax := Ring2Utils.leftShift cipher.ax bits logqi
  let bx := Ring2Utils.leftShift cipher.bx bits logqi
  ⟨ax, bx, cipher.slots, cipher.level⟩

def leftShiftAndEqual (params : Params) (cipher : Cipher N) (bits : Int) : Cipher N :=
  let logqi := getLogqi params cipher.level
  let cipher := { cipher with ax := Ring2Utils.leftShiftAndEqual cipher.ax bits logqi }
  let cipher := { cipher with bx := Ring2Utils.leftShiftAndEqual cipher.bx bits logqi }
  cipher

def doubleAndEqual (params : Params) (cipher : Cipher N) : Cipher N :=
  let logqi := getLogqi params cipher.level
  let cipher := { cipher with ax := Ring2Utils.doubleAndEqual cipher.ax logqi }
  let cipher := { cipher with bx := Ring2Utils.doubleAndEqual cipher.bx logqi }
  cipher

def modSwitch (params : Params) (cipher : Cipher N) (newLevel : Int) : Cipher N :=
  let logdf := params.logp * (newLevel - cipher.level)
  let ax := Ring2Utils.rightShift cipher.ax logdf
  let bx := Ring2Utils.rightShift cipher.bx logdf
  ⟨ax, bx, cipher.slots, newLevel⟩

def modSwitchOne (params : Params) (cipher : Cipher N) : Cipher N :=
  let newLevel := cipher.level + 1
  modSwitch params cipher newLevel

def modSwitchAndEqual (params : Params) (cipher : Cipher N) (newLevel : Int) : Cipher N :=
  let logdf := params.logp * (newLevel - cipher.level)
  let cipher := { cipher with ax := Ring2Utils.rightShiftAndEqual cipher.ax logdf }
  let cipher := { cipher with bx := Ring2Utils.rightShiftAndEqual cipher.bx logdf }
  let cipher := { cipher with level := newLevel }
  cipher

def modSwitchOneAndEqual (params : Params) (cipher : Cipher N) : Cipher N :=
  let newLevel := cipher.level + 1
  modSwitchAndEqual params cipher newLevel

def modEmbed (params : Params) (cipher : Cipher N) (newLevel : Int) : Cipher N :=
  let newLogqi := getLogqi params newLevel
  let ax := Ring2Utils.truncate cipher.ax newLogqi
  let bx := Ring2Utils.truncate cipher.bx newLogqi
  ⟨ax, bx, cipher.slots, newLevel⟩

/-- The overload `modEmbed(Cipher& cipher)` with no level argument. -/
def modEmbedOne (params : Params) (cipher : Cipher N) : Cipher N :=
  let newLevel := cipher.level + 1
  modEmbed params cipher newLevel

def modEmbedAndEqual (params : Params) (cipher : Cipher N) (newLevel : Int) : Cipher N :=
  let newLogqi := getLogqi params newLevel
  let cipher := { cipher with ax := Ring2Utils.truncateAndEqual cipher.ax newLogqi }
  let cipher := { cipher with bx := Ring2Utils.truncateAndEqual cipher.bx newLogqi }
  let cipher := { cipher with level := newLevel }
  cipher

def modEmbedOneAndEqual (params : Params) (cipher : Cipher N) : Cipher N :=
  let newLevel := cipher.level + 1
  modEmbedAndEqual params cipher newLevel

def leftRotateByPo2 (params : Params) (publicKey : PubKey N) (cipher : Cipher N)
    (logPow : Int) : Cipher N :=
  let qi := getqi params cipher.level
  let Pqi := getPqi params cipher.level
  let pow : Int := 2 ^ logPow.toNat
  let bxrot := Ring2Utils.inpower cipher.bx (params.rotGroup params.logNh pow) params.q
  let bxres := Ring2Utils.inpower cipher.ax (params.rotGroup params.logNh pow) params.q
  let axres := Ring2Utils.mult bxres (publicKey.axKeySwitch logPow) Pqi
  let bxres := Ring2Utils.multAndEqual bxres (publicKey.bxKeySwitch logPow) Pqi
  let axres := Ring2Utils.rightShiftAndEqual axres params.logP
  let bxres := Ring2Utils.rightShiftAndEqual bxres params.logP
  let bxres := Ring2Utils.addAndEqual bxres bxrot qi
  ⟨axres, bxres, cipher.slots, cipher.level⟩

def leftRotateByPo2AndEqual (params : Params) (publicKey : PubKey N) (cipher : Cipher N)
    (logPow : Int) : Cipher N :=
  let qi := getqi params cipher.level
  let Pqi := getPqi params cipher.level
  let pow : Int := 2 ^ logPow.toNat
  let bxrot := Ring2Utils.inpower cipher.bx (params.rotGroup params.logNh pow) params.q
  let bxres := Ring2Utils.inpower cipher.ax (params.rotGroup params.logNh pow) params.q
  let axres := Ring2Utils.mult bxres (publicKey.axKeySwitch logPow) Pqi
  let bxres := Ring2Utils.multAndEqual bxres (publicKey.bxKeySwitch logPow) Pqi
  let axres := Ring2Utils.rightShiftAndEqual axres params.logP
  let bxres := Ring2Utils.rightShiftAndEqual bxres params.logP
  let bxres := Ring2Utils.addAndEqual bxres bxrot qi
  let cipher := { cipher with ax := axres }
  let cipher := { cipher with bx := bxres }
  cipher

/-- `leftRotateAndEqual`: the loop `for (long i = 0; i < logsteps; ++i)` over
the counters `0, 1, ..., logsteps - 1`. -/
def leftRotateAndEqual (params : Params) (publicKey : PubKey N) (cipher : Cipher N)
    (steps : Int) : Cipher N :=
  let steps := Int.tmod steps params.Nh
  let logsteps := log2 steps
  (List.range logsteps.toNat).foldl
    (fun (cipher : Cipher N) (i : Nat) =>
      if bit steps (i : Int) then leftRotateByPo2AndEqual params publicKey cipher (i : Int)
      else cipher)
    cipher

def leftRotate (params : Params) (publicKey : PubKey N) (cipher : Cipher N)
    (steps : Int) : Cipher N :=
  let res := cipher
  let res := leftRotateAndEqual params publicKey res steps
  res

end Scheme

/-- Invariants I1 and I2 of the spec: the output `c'` has the slots and the
level of the input `c`. -/
def keepsSlotsAndLevel {N : Nat} (c' c : Cipher N) : Prop :=
  c'.slots = c.slots ∧ c'.level = c.level

/-- Coefficients reduced modulo `q`: every coefficient lies in `[0, q)`. -/
def reducedMod {N : Nat} (q : Int) (x : Poly N) : Prop :=
  ∀ i : Fin N, 0 ≤ x.coeff i ∧ x.coeff i < q

instance instDecidableReducedMod {N : Nat} (q : Int) (x : Poly N) :
    Decidable (reducedMod q x) :=
  inferInstanceAs (Decidable (∀ i : Fin N, 0 ≤ x.coeff i ∧ x.coeff i < q))

/-- The two ciphers `(cipher1, cipher2)` after the call
`multAndEqual(cipher1, cipher2)`: the source assigns to `cipher1` only. -/
def multAndEqualBoth {N : Nat} (params : Params) (publicKey : PubKey N)
    (ciphers : Cipher N × Cipher N) : Cipher N × Cipher N :=
  (Scheme.multAndEqual params publicKey ciphers.1 ciphers.2, ciphers.2)

/-- The contract of `Params` as spec §6.3 words it: `qi[j] = 2^(logq − logp·j)`
and `Pqi[j] = P·qi[j]` with `P = 2^logP`, for `j` in `[0, L)`. -/
def statedContract (params : Params) : Prop :=
  ∀ j : Nat, j < params.L.toNat →
    params.qi (j : Int) = 2 ^ (params.logq - params.logp * (j : Int)).toNat
    ∧ params.Pqi (j : Int) = 2 ^ params.logP.toNat * params.qi (j : Int)

instance instDecidableStatedContract (params : Params) : Decidable (statedContract params) :=
  inferInstanceAs (Decidable (∀ j : Nat, j < params.L.toNat →
    params.qi (j : Int) = 2 ^ (params.logq - params.logp * (j : Int)).toNat
    ∧ params.Pqi (j : Int) = 2 ^ params.logP.toNat * params.qi (j : Int)))

/-- The chain of moduli of spec §2, `q_i = 2^(logq − logp·(L − i))` for
`i = 1..L`, stored at index `i − 1`: `qi[j] = 2^(logq − logp·(L − 1 − j))`, and
`Pqi[j] = P·qi[j]` with `P = 2^logP`. -/
def chainContract (params : Params) : Prop :=
  ∀ j : Nat, j < params.L.toNat →
    params.qi (j : Int)
      = 2 ^ (params.logq - params.logp * (params.L - 1 - (j : Int))).toNat
    ∧ params.Pqi (j : Int) = 2 ^ params.logP.toNat * params.qi (j : Int)

instance instDecidableChainContract (params : Params) : Decidable (chainContract params) :=
  inferInstanceAs (Decidable (∀ j : Nat, j < params.L.toNat →
    params.qi (j : Int)
      = 2 ^ (params.logq - params.logp * (params.L - 1 - (j : Int))).toNat
    ∧ params.Pqi (j : Int) = 2 ^ params.logP.toNat * params.qi (j : Int)))

/-! ## Concrete inputs (`N = 4`, `L = 4`, `logp = 2`, `logq = 8`, `logP = 3`) -/

/-- Parameters with the chain of moduli `q_i = 2^(logq - logp*(L - i))`,
`i = 1..L`, stored as `qi[i - 1] = 2^(logp*i)`, so that `getqi(level)` is
`2^getLogqi(level)`: `256, 64, 16, 4` at levels `1, 2, 3, 4`;
`Pqi[j] = 2^logP * qi[j]`, `rotGroup[i][j] = 5^j mod 2^(i+2)` and
`rotGroupInv[i][j] = 2^(i+2) - rotGroup[i][2^i - 1 - j]`. -/
def exParams : Params where
  logp := 2
  logq := 8
  L := 4
  logP := 3
  Nh := 2
  logNh := 1
  q := 256
  qi := fun j => 2 ^ (2 * (j + 1)).toNat
  Pqi := fun j => 8 * 2 ^ (2 * (j + 1)).toNat
  rotGroup := fun i j => 5 ^ j.toNat % 2 ^ (i + 2).toNat
  rotGroupInv := fun i j =>
    2 ^ (i + 2).toNat - 5 ^ (2 ^ i.toNat - 1 - j).toNat % 2 ^ (i + 2).toNat

/-- Secret key `X - X^3`. -/
def exSecKey : SecKey 4 := ⟨⟨![0, 1, 0, -1]⟩⟩

/-- Public key with `bx = -ax * sx` (no error term) and zero switching keys. -/
def exPubKey : PubKey 4 where
  ax := ⟨![3, 1, 4, 1]⟩
  bx := ⟨![2, -7, 0, -1]⟩
  axStar := ⟨![5, 9, 2, 6]⟩
  bxStar := ⟨![5, 3, 5, 8]⟩
  axConj := 0
  bxConj := 0
  axKeySwitch := fun _ => 0
  bxKeySwitch := fun _ => 0

/-- A ternary polynomial, as `sampleZO` draws them. -/
def exVx : Poly 4 := ⟨![1, 0, -1, 1]⟩

def exMsg : Message 4 := ⟨⟨![7, 0, 5, 0]⟩, 2, 1⟩

/-- A cipher at level 1 with coefficients in `[0, 256)`. -/
def exCipher1 : Cipher 4 := ⟨⟨![10, 200, 3, 77]⟩, ⟨![0, 255, 16, 9]⟩, 2, 1⟩

/-- A cipher at level 2 with coefficients in `[0, 64)`. -/
def exCipher2 : Cipher 4 := ⟨⟨![60, 2, 33, 7]⟩, ⟨![1, 50, 63, 12]⟩, 2, 2⟩

/-- A cipher at the last level `L = 4` with coefficients in `[0, 4)`. -/
def exCipherL : Cipher 4 := ⟨⟨![1, 3, 0, 2]⟩, ⟨![0, 1, 3, 2]⟩, 2, 4⟩

/-- Parameters that satisfy the contract as spec §6.3 words it,
`qi[j] = 2^(logq - logp*j)`: the table holds `256, 64, 16, 4` at `j = 0..3`. -/
def exParamsStated : Params where
  logp := 2
  logq := 8
  L := 4
  logP := 3
  Nh := 2
  logNh := 1
  q := 256
  qi := fun j => 2 ^ (8 - 2 * j).toNat
  Pqi := fun j => 8 * 2 ^ (8 - 2 * j).toNat
  rotGroup := fun i j => 5 ^ j.toNat % 2 ^ (i + 2).toNat
  rotGroupInv := fun i j =>
    2 ^ (i + 2).toNat - 5 ^ (2 ^ i.toNat - 1 - j).toNat % 2 ^ (i + 2).toNat

/-- The constant polynomial `c`. -/
def Poly.C {N : Nat} (c : Int) : Poly N := ⟨fun i => if i.val = 0 then c else 0⟩

/-- A conjugation key that is, for the secret `s`, an exact key-switching key
modulo `P·q` (`P = 2^logP`): `bxConj + axConj·s ≡ P·σ(s)`. -/
def exPubKeyConj : PubKey 4 :=
  { exPubKey with axConj := ⟨![5, 9, 2, 6]⟩, bxConj := ⟨![2045, 2033, 2033, 11]⟩ }

/-- A stand-in for `NumUtils::fftSpecialInv` on four entries: entry `i` of
the result is `(vals[i].r · 2^logp + 30·i − 150, vals[i].i)`. -/
def exFftSpecialInv (vals : Int → CZZ) (_n : Int) (logp : Int) : Int → CZZ :=
  fun i => ⟨(vals i).r * 2 ^ logp.toNat + 30 * i - 150, (vals i).i⟩

/-- Four grouped values. -/
def exVals : Int → CZZ := fun i => ⟨5 * i, i - 1⟩

/-! ## Concrete inputs for rotations (`N = 8`, `Nh = 4`) -/

/-- Parameters with `N = 8`, `Nh = 4`, `logNh = 2` and the moduli of `exParams`. -/
def exParams8 : Params where
  logp := 2
  logq := 8
  L := 4
  logP := 3
  Nh := 4
  logNh := 2
  q := 256
  qi := fun j => 2 ^ (2 * (j + 1)).toNat
  Pqi := fun j => 8 * 2 ^ (2 * (j + 1)).toNat
  rotGroup := fun i j => 5 ^ j.toNat % 2 ^ (i + 2).toNat
  rotGroupInv := fun i j =>
    2 ^ (i + 2).toNat - 5 ^ (2 ^ i.toNat - 1 - j).toNat % 2 ^ (i + 2).toNat

def exPubKey8 : PubKey 8 where
  ax := ⟨![3, 1, 4, 1, 5, 9, 2, 6]⟩
  bx := ⟨![2, 7, 1, 8, 2, 8, 1, 8]⟩
  axStar := ⟨![1, 0, 2, 0, 0, 3, 0, 0]⟩
  bxStar := ⟨![0, 4, 0, 0, 1, 0, 0, 5]⟩
  axConj := 0
  bxConj := 0
  axKeySwitch := fun _ => ⟨![8, 0, 16, 0, 0, 0, 24, 0]⟩
  bxKeySwitch := fun _ => ⟨![0, 32, 0, 0, 8, 0, 0, 0]⟩

/-- A cipher at level 1 with coefficients in `[0, 256)`. -/
def exCipher8 : Cipher 8 :=
  ⟨⟨![10, 200, 3, 77, 0, 1, 128, 5]⟩, ⟨![0, 255, 16, 9, 100, 42, 7, 250]⟩, 4, 1⟩

/-! ### Ring laws of the negacyclic product -/

section RingLaws

variable {N : Nat}

@[simp] theorem Poly.coeff_zero (i : Fin N) : (0 : Poly N).coeff i = 0 := rfl

@[simp] theorem Poly.coeff_one (i : Fin N) :
    (1 : Poly N).coeff i = if i.val = 0 then 1 else 0 := rfl

@[simp] theorem Poly.coeff_add (x y : Poly N) (i : Fin N) :
    (x + y).coeff i = x.coeff i + y.coeff i := rfl

@[simp] theorem Poly.coeff_neg (x : Poly N) (i : Fin N) : (-x).coeff i = - x.coeff i := rfl

@[simp] theorem Poly.coeff_sub (x y : Poly N) (i : Fin N) :
    (x - y).coeff i = x.coeff i - y.coeff i := rfl

theorem Poly.coeff_mul (x y : Poly N) (k : Fin N) :
    (x * y).coeff k = ∑ i : Fin N, ∑ j : Fin N,
      negaWeight N ((i.val : Int) + (j.val : Int)) k * (x.coeff i * y.coeff j) := rfl

@[simp] theorem Poly.coeff_modq (x : Poly N) (q : Int) (i : Fin N) :
    (x.modq q).coeff i = x.coeff i % q := rfl

/-- Sign of a parity: `1` for even, `-1` for odd. -/
theorem sign_parity_add (a b : Int) :
    (if a % 2 = 0 then (1 : Int) else -1) * (if b % 2 = 0 then 1 else -1)
      = if (a + b) % 2 = 0 then 1 else -1 := by
  have ha : a % 2 = 0 ∨ a % 2 = 1 := by omega
  have hb : b % 2 = 0 ∨ b % 2 = 1 := by omega
  rcases ha with ha | ha <;> rcases hb with hb | hb
  · have : (a + b) % 2 = 0 := by omega
    simp [ha, hb, this]
  · have : (a + b) % 2 = 1 := by omega
    simp [ha, hb, this]
  · have : (a + b) % 2 = 1 := by omega
    simp [ha, hb, this]
  · have : (a + b) % 2 = 0 := by omega
    simp [ha, hb, this]

/-- Reducing `X^n` and then multiplying by `X^l` is the same as reducing `X^(n+l)`. -/
theorem negaWeight_comp (n l : Int) (k : Fin N) :
    ∑ m : Fin N, negaWeight N n m * negaWeight N ((m.val : Int) + l) k
      = negaWeight N (n + l) k := by
  have hN : 0 < N := Nat.lt_of_le_of_lt (Nat.zero_le _) k.isLt
  have hNz : (N : Int) ≠ 0 := by omega
  have hNpos : (0 : Int) < N := by omega
  have hlo : 0 ≤ n % (N : Int) := Int.emod_nonneg _ hNz
  have hhi : n % (N : Int) < N := Int.emod_lt_of_pos _ hNpos
  let m0 : Fin N := ⟨(n % (N : Int)).toNat, by omega⟩
  have hm0 : ((m0.val : Nat) : Int) = n % (N : Int) := by
    show (((n % (N : Int)).toNat : Nat) : Int) = n % (N : Int)
    omega
  rw [Finset.sum_eq_single m0]
  · have hn : n + l = ((m0.val : Int) + l) + (N : Int) * (n / (N : Int)) := by
      have := Int.emod_add_ediv n (N : Int)
      rw [hm0]
      omega
    have hmod : (n + l) % (N : Int) = ((m0.val : Int) + l) % (N : Int) := by
      rw [hn, Int.add_mul_emod_self_left]
    have hdiv : (n + l) / (N : Int) = ((m0.val : Int) + l) / (N : Int) + n / (N : Int) := by
      rw [hn, Int.add_mul_ediv_left _ _ hNz]
    unfold negaWeight
    rw [hmod, hdiv, if_pos hm0.symm]
    by_cases hk : ((m0.val : Int) + l) % (N : Int) = (k.val : Int)
    · rw [if_pos hk, if_pos hk, sign_parity_add, add_comm]
    · rw [if_neg hk, if_neg hk, mul_zero]
  · intro m _ hm
    unfold negaWeight
    have : ¬ (n % (N : Int) = (m.val : Int)) := by
      intro h
      apply hm
      apply Fin.ext
      show m.val = (n % (N : Int)).toNat
      omega
    rw [if_neg this, zero_mul]
  · intro h
    exact absurd (Finset.mem_univ m0) h

theorem Poly.mul_comm' (x y : Poly N) : x * y = y * x := by
  ext k
  rw [Poly.coeff_mul, Poly.coeff_mul, Finset.sum_comm]
  refine Finset.sum_congr rfl fun j _ => Finset.sum_congr rfl fun i _ => ?_
  rw [add_comm, mul_comm (x.coeff i)]

/-- Triple product, in its symmetric form: the coefficient of `X^k` in
`x * y * z` collects `x_i * y_j * z_l` with the weight of `X^(i+j+l)`. -/
theorem Poly.coeff_mul_mul (x y z : Poly N) (k : Fin N) :
    (x * y * z).coeff k = ∑ i : Fin N, ∑ j : Fin N, ∑ l : Fin N,
      negaWeight N ((i.val : Int) + (j.val : Int) + (l.val : Int)) k
        * (x.coeff i * y.coeff j * z.coeff l) := by
  rw [Poly.coeff_mul]
  simp only [Poly.coeff_mul, Finset.sum_mul, Finset.mul_sum]
  -- ∑ m, ∑ l, ∑ i, ∑ j  →  ∑ i, ∑ j, ∑ l, ∑ m
  rw [Finset.sum_comm]
  rw [Finset.sum_congr rfl fun l _ => Finset.sum_comm]
  rw [Finset.sum_comm]
  refine Finset.sum_congr rfl fun i _ => ?_
  rw [Finset.sum_congr rfl fun l _ => Finset.sum_comm]
  rw [Finset.sum_comm]
  refine Finset.sum_congr rfl fun j _ => ?_
  refine Finset.sum_congr rfl fun l _ => ?_
  rw [← negaWeight_comp ((i.val : Int) + (j.val : Int)) (l.val : Int) k, Finset.sum_mul]
  refine Finset.sum_congr rfl fun m _ => ?_
  ring

theorem Poly.mul_assoc' (x y z : Poly N) : x * y * z = x * (y * z) := by
  rw [Poly.mul_comm' x (y * z)]
  ext k
  rw [Poly.coeff_mul_mul, Poly.coeff_mul_mul]
  rw [Finset.sum_comm]
  refine Finset.sum_congr rfl fun j _ => ?_
  rw [Finset.sum_comm]
  refine Finset.sum_congr rfl fun l _ => Finset.sum_congr rfl fun i _ => ?_
  have : (i.val : Int) + (j.val : Int) + (l.val : Int)
      = (j.val : Int) + (l.val : Int) + (i.val : Int) := by ring
  rw [this]
  ring

theorem Poly.left_distrib' (x y z : Poly N) : x * (y + z) = x * y + x * z := by
  ext k
  simp only [Poly.coeff_mul, Poly.coeff_add, mul_add, Finset.sum_add_distrib]

/-- For `0 ≤ j < N` the monomial `X^j` is already reduced. -/
theorem negaWeight_small (j k : Fin N) :
    negaWeight N (j.val : Int) k = if j = k then 1 else 0 := by
  have hj := j.isLt
  have h1 : ((j.val : Int)) % (N : Int) = (j.val : Int) :=
    Int.emod_eq_of_lt (by omega) (by omega)
  have h2 : ((j.val : Int)) / (N : Int) = 0 := Int.ediv_eq_zero_of_lt (by omega) (by omega)
  unfold negaWeight
  rw [h1, h2]
  by_cases h : j = k
  · subst h
    simp
  · have : ¬ ((j.val : Int) = (k.val : Int)) := by
      intro h'
      apply h
      apply Fin.ext
      omega
    rw [if_neg this, if_neg h]

theorem Poly.one_mul' (x : Poly N) : 1 * x = x := by
  ext k
  have hN : 0 < N := Nat.lt_of_le_of_lt (Nat.zero_le _) k.isLt
  rw [Poly.coeff_mul, Finset.sum_eq_single (⟨0, hN⟩ : Fin N)]
  · simp only [Poly.coeff_one, if_true, one_mul, Nat.cast_zero, zero_add, negaWeight_small]
    simp
  · intro i _ hi
    have : i.val ≠ 0 := fun h => hi (Fin.ext h)
    simp [Poly.coeff_one, this]
  · intro h
    exact absurd (Finset.mem_univ _) h

instance Poly.instCommRingPoly : CommRing (Poly N) where
  add_assoc x y z := by ext i; simp [add_assoc]
  zero_add x := by ext i; simp
  add_zero x := by ext i; simp
  add_comm x y := by ext i; simp [add_comm]
  neg_add_cancel x := by ext i; simp
  sub_eq_add_neg x y := by ext i; simp [sub_eq_add_neg]
  nsmul := nsmulRec
  zsmul := zsmulRec
  mul_assoc := Poly.mul_assoc'
  one_mul := Poly.one_mul'
  mul_one x := by rw [Poly.mul_comm']; exact Poly.one_mul' x
  left_distrib := Poly.left_distrib'
  right_distrib x y z := by
    rw [Poly.mul_comm' (x + y) z, Poly.left_distrib', Poly.mul_comm' z x, Poly.mul_comm' z y]
  mul_comm := Poly.mul_comm'
  zero_mul x := by ext k; simp [Poly.coeff_mul]
  mul_zero x := by ext k; simp [Poly.coeff_mul]

/-! ### Congruence modulo `q` as a ring congruence -/

theorem PolyModEq.refl' (q : Int) (x : Poly N) : PolyModEq q x x := fun _ => Int.ModEq.refl _

theorem PolyModEq.symm' {q : Int} {x y : Poly N} (h : PolyModEq q x y) : PolyModEq q y x :=
  fun i => (h i).symm

theorem PolyModEq.trans' {q : Int} {x y z : Poly N} (h1 : PolyModEq q x y)
    (h2 : PolyModEq q y z) : PolyModEq q x z := fun i => (h1 i).trans (h2 i)

theorem PolyModEq.add' {q : Int} {w x y z : Poly N} (h1 : PolyModEq q w x)
    (h2 : PolyModEq q y z) : PolyModEq q (w + y) (x + z) :=
  fun i => Int.ModEq.add (h1 i) (h2 i)

theorem PolyModEq.mul' {q : Int} {w x y z : Poly N} (h1 : PolyModEq q w x)
    (h2 : PolyModEq q y z) : PolyModEq q (w * y) (x * z) := by
  intro k
  rw [Poly.coeff_mul, Poly.coeff_mul]
  unfold Int.ModEq
  rw [Finset.sum_int_mod, Finset.sum_int_mod Finset.univ q (fun i => ∑ j : Fin N,
    negaWeight N ((i.val : Int) + (j.val : Int)) k * (x.coeff i * z.coeff j))]
  congr 1
  refine Finset.sum_congr rfl fun i _ => ?_
  rw [Finset.sum_int_mod, Finset.sum_int_mod Finset.univ q (fun j =>
    negaWeight N ((i.val : Int) + (j.val : Int)) k * (x.coeff i * z.coeff j))]
  congr 1
  refine Finset.sum_congr rfl fun j _ => ?_
  exact Int.ModEq.mul_left _ (Int.ModEq.mul (h1 i) (h2 j))

/-- Coefficient-wise congruence modulo `q`, as a congruence of the ring `Z[X]/(X^N+1)`. -/
def polyCon (N : Nat) (q : Int) : RingCon (Poly N) where
  r := PolyModEq q
  iseqv := ⟨PolyModEq.refl' q, PolyModEq.symm', PolyModEq.trans'⟩
  add' := PolyModEq.add'
  mul' := PolyModEq.mul'

/-- Class of a polynomial modulo `q`. -/
def toQ (q : Int) (x : Poly N) : (polyCon N q).Quotient := (x : (polyCon N q).Quotient)

theorem polyModEq_iff (q : Int) (x y : Poly N) : PolyModEq q x y ↔ toQ q x = toQ q y :=
  ((polyCon N q).eq).symm

@[simp] theorem toQ_add (q : Int) (x y : Poly N) : toQ q (x + y) = toQ q x + toQ q y := rfl

@[simp] theorem toQ_mul (q : Int) (x y : Poly N) : toQ q (x * y) = toQ q x * toQ q y := rfl

@[simp] theorem toQ_sub (q : Int) (x y : Poly N) : toQ q (x - y) = toQ q x - toQ q y := rfl

@[simp] theorem toQ_neg (q : Int) (x : Poly N) : toQ q (-x) = - toQ q x := rfl

theorem modq_modEq (q : Int) (x : Poly N) : PolyModEq q (x.modq q) x :=
  fun _ => Int.mod_modEq _ _

@[simp] theorem toQ_modq (q : Int) (x : Poly N) : toQ q (x.modq q) = toQ q x :=
  (polyModEq_iff q _ _).mp (modq_modEq q x)

/-- Two reductions modulo `q` are equal exactly when their arguments are congruent. -/
theorem modq_eq_iff (q : Int) (x y : Poly N) : x.modq q = y.modq q ↔ PolyModEq q x y := by
  constructor
  · intro h i
    have := congrArg (fun p => p.coeff i) h
    exact this
  · intro h
    ext i
    exact h i

end RingLaws

/-! ## Encryption and decryption -/

section Claims

set_option linter.unusedVariables false

variable {N : Nat}

/-- Decryption of a cipher, as an element of `Z[X]/(X^N+1)` modulo `q_level`. -/
theorem toQ_decryptMsg (params : Params) (secretKey : SecKey N) (cipher : Cipher N) :
    toQ (Scheme.getqi params cipher.level) (Scheme.decryptMsg params secretKey cipher).mx
      = toQ (Scheme.getqi params cipher.level) cipher.ax
          * toQ (Scheme.getqi params cipher.level) secretKey.sx
        + toQ (Scheme.getqi params cipher.level) cipher.bx := by
  simp only [Scheme.decryptMsg, Ring2Utils.mult, Ring2Utils.addAndEqual, toQ_modq, toQ_add,
    toQ_mul]

/-- C1: for every message, every level in `[1, L]`, every sampled ternary
polynomial `v` and every secret key, `decryptMsg(sk, encryptMsg(msg, level))`
has the slots of the message and the requested level, and its polynomial is
congruent to `msg.mx + v * (pk.bx + pk.ax * sx)` modulo `q_level`; when
`pk.bx = -pk.ax * sx + e` it is congruent to `msg.mx + v * e`, and to `msg.mx`
when `e = 0`. -/
theorem decryptMsg_encryptMsg (params : Params) (publicKey : PubKey N) (secretKey : SecKey N)
    (vx : Poly N) (msg : Message N) (level : Int)
    (hlevel : 1 ≤ level ∧ level ≤ params.L)
    (hvx : ∀ i : Fin N, vx.coeff i = -1 ∨ vx.coeff i = 0 ∨ vx.coeff i = 1) :
    (Scheme.decryptMsg params secretKey
        (Scheme.encryptMsg params publicKey vx msg level)).slots = msg.slots
    ∧ (Scheme.decryptMsg params secretKey
        (Scheme.encryptMsg params publicKey vx msg level)).level = level
    ∧ PolyModEq (Scheme.getqi params level)
        (Scheme.decryptMsg params secretKey (Scheme.encryptMsg params publicKey vx msg level)).mx
        (msg.mx + vx * (publicKey.bx + publicKey.ax * secretKey.sx))
    ∧ (∀ e : Poly N,
        PolyModEq (Scheme.getqi params level) publicKey.bx
          (-(publicKey.ax * secretKey.sx) + e) →
        PolyModEq (Scheme.getqi params level)
          (Scheme.decryptMsg params secretKey
            (Scheme.encryptMsg params publicKey vx msg level)).mx
          (msg.mx + vx * e))
    ∧ (PolyModEq (Scheme.getqi params level) publicKey.bx (-(publicKey.ax * secretKey.sx)) →
        PolyModEq (Scheme.getqi params level)
          (Scheme.decryptMsg params secretKey
            (Scheme.encryptMsg params publicKey vx msg level)).mx
          msg.mx) := by
  have key : toQ (Scheme.getqi params level)
      (Scheme.decryptMsg params secretKey (Scheme.encryptMsg params publicKey vx msg level)).mx
      = toQ (Scheme.getqi params level) msg.mx
        + toQ (Scheme.getqi params level) vx
          * (toQ (Scheme.getqi params level) publicKey.bx
            + toQ (Scheme.getqi params level) publicKey.ax
              * toQ (Scheme.getqi params level) secretKey.sx) := by
    have h := toQ_decryptMsg params secretKey (Scheme.encryptMsg params publicKey vx msg level)
    have hl : (Scheme.encryptMsg params publicKey vx msg level).level = level := rfl
    rw [hl] at h
    rw [h]
    simp only [Scheme.encryptMsg, Scheme.rlweInstance, Ring2Utils.mult, Ring2Utils.add,
      toQ_modq, toQ_add, toQ_mul]
    ring
  refine ⟨rfl, rfl, ?_, ?_, ?_⟩
  · rw [polyModEq_iff, key]
    simp only [toQ_add, toQ_mul]
  · intro e he
    rw [polyModEq_iff] at he ⊢
    rw [key, he]
    simp only [toQ_add, toQ_mul, toQ_neg]
    ring
  · intro he
    rw [polyModEq_iff] at he ⊢
    rw [key, he]
    simp only [toQ_mul, toQ_neg]
    ring

/-- Encryption at level 1 under the concrete key `exPubKey`, for which
`bx = -ax * sx + e` with `e = 2 + 2 X^2`. -/
theorem decryptMsg_encryptMsg_witness :
    (1 ≤ (1 : Int) ∧ (1 : Int) ≤ exParams.L)
    ∧ (∀ i : Fin 4, exVx.coeff i = -1 ∨ exVx.coeff i = 0 ∨ exVx.coeff i = 1)
    ∧ PolyModEq (Scheme.getqi exParams 1) exPubKey.bx
        (-(exPubKey.ax * exSecKey.sx) + ⟨![2, 0, 2, 0]⟩)
    ∧ PolyModEq (Scheme.getqi exParams 1)
        (Scheme.decryptMsg exParams exSecKey
          (Scheme.encryptMsg exParams exPubKey exVx exMsg 1)).mx
        (exMsg.mx + exVx * ⟨![2, 0, 2, 0]⟩) :=
  ⟨by decide, by decide, by decide,
    (decryptMsg_encryptMsg exParams exPubKey exSecKey exVx exMsg 1 (by decide)
      (by decide)).2.2.2.1 ⟨![2, 0, 2, 0]⟩ (by decide)⟩

/-! ## Homomorphic operators -/

/-- C2: for every secret key and every two ciphers with the same level and
slots, the decryption of `add(c1, c2)` is congruent modulo `q_level` to the sum
of the two decryptions, and the decryption of `sub(c1, c2)` to their difference. -/
theorem decryptMsg_add_sub (params : Params) (secretKey : SecKey N) (cipher1 cipher2 : Cipher N)
    (hlevel : cipher1.level = cipher2.level) (hslots : cipher1.slots = cipher2.slots) :
    PolyModEq (Scheme.getqi params cipher1.level)
      (Scheme.decryptMsg params secretKey (Scheme.add params cipher1 cipher2)).mx
      ((Scheme.decryptMsg params secretKey cipher1).mx
        + (Scheme.decryptMsg params secretKey cipher2).mx)
    ∧ PolyModEq (Scheme.getqi params cipher1.level)
      (Scheme.decryptMsg params secretKey (Scheme.sub params cipher1 cipher2)).mx
      ((Scheme.decryptMsg params secretKey cipher1).mx
        - (Scheme.decryptMsg params secretKey cipher2).mx) := by
  have h1 := toQ_decryptMsg params secretKey cipher1
  have h2 := toQ_decryptMsg params secretKey cipher2
  have ha := toQ_decryptMsg params secretKey (Scheme.add params cipher1 cipher2)
  have hs := toQ_decryptMsg params secretKey (Scheme.sub params cipher1 cipher2)
  have hla : (Scheme.add params cipher1 cipher2).level = cipher1.level := rfl
  have hls : (Scheme.sub params cipher1 cipher2).level = cipher1.level := rfl
  rw [hla] at ha
  rw [hls] at hs
  rw [← hlevel] at h2
  constructor
  · rw [polyModEq_iff, toQ_add, ha, h1, h2]
    simp only [Scheme.add, Ring2Utils.add, toQ_modq, toQ_add]
    ring
  · rw [polyModEq_iff, toQ_sub, hs, h1, h2]
    simp only [Scheme.sub, Ring2Utils.sub, toQ_modq, toQ_sub]
    ring

/-- Two concrete ciphers at level 1 with the same slots. -/
theorem decryptMsg_add_sub_witness :
    exCipher1.level = ({ exCipher2 with level := 1 } : Cipher 4).level
    ∧ exCipher1.slots = ({ exCipher2 with level := 1 } : Cipher 4).slots
    ∧ PolyModEq (Scheme.getqi exParams exCipher1.level)
      (Scheme.decryptMsg exParams exSecKey
        (Scheme.add exParams exCipher1 { exCipher2 with level := 1 })).mx
      ((Scheme.decryptMsg exParams exSecKey exCipher1).mx
        + (Scheme.decryptMsg exParams exSecKey { exCipher2 with level := 1 }).mx) :=
  ⟨by decide, by decide,
    (decryptMsg_add_sub exParams exSecKey exCipher1 { exCipher2 with level := 1 }
      (by decide) (by decide)).1⟩

/-- C3: for two ciphers of the same level, `mult(c1, c2)` returns
`a = (rshift(d2 * axStar mod P*q, logP) + d1) mod q` and
`b = (rshift(d2 * bxStar mod P*q, logP) + d0) mod q`, with `d0 = b1 * b2`,
`d2 = a1 * a2` computed in `R_q` and `d1 = (a1+b1)*(a2+b2) - d0 - d2`, which is
congruent to `a1*b2 + a2*b1`; hence its decryption is congruent modulo `q` to
the product of the two decryptions plus
`E = rshift(d2*axStar mod P*q, logP) * s + rshift(d2*bxStar mod P*q, logP) - d2 * s^2`. -/
theorem mult_decryptMsg (params : Params) (publicKey : PubKey N) (secretKey : SecKey N)
    (cipher1 cipher2 : Cipher N) (hlevel : cipher1.level = cipher2.level) :
    (Scheme.mult params publicKey cipher1 cipher2).ax
      = (Ring2Utils.rightShift
            (Ring2Utils.mult
              (Ring2Utils.mult cipher1.ax cipher2.ax (Scheme.getqi params cipher1.level))
              publicKey.axStar (Scheme.getPqi params cipher1.level)) params.logP
          + ((cipher1.ax + cipher1.bx) * (cipher2.ax + cipher2.bx)
              - Ring2Utils.mult cipher1.bx cipher2.bx (Scheme.getqi params cipher1.level)
              - Ring2Utils.mult cipher1.ax cipher2.ax (Scheme.getqi params cipher1.level))).modq
          (Scheme.getqi params cipher1.level)
    ∧ (Scheme.mult params publicKey cipher1 cipher2).bx
      = (Ring2Utils.rightShift
            (Ring2Utils.mult
              (Ring2Utils.mult cipher1.ax cipher2.ax (Scheme.getqi params cipher1.level))
              publicKey.bxStar (Scheme.getPqi params cipher1.level)) params.logP
          + Ring2Utils.mult cipher1.bx cipher2.bx (Scheme.getqi params cipher1.level)).modq
          (Scheme.getqi params cipher1.level)
    ∧ PolyModEq (Scheme.getqi params cipher1.level)
        ((cipher1.ax + cipher1.bx) * (cipher2.ax + cipher2.bx)
          - Ring2Utils.mult cipher1.bx cipher2.bx (Scheme.getqi params cipher1.level)
          - Ring2Utils.mult cipher1.ax cipher2.ax (Scheme.getqi params cipher1.level))
        (cipher1.ax * cipher2.bx + cipher2.ax * cipher1.bx)
    ∧ PolyModEq (Scheme.getqi params cipher1.level)
        (Scheme.decryptMsg params secretKey (Scheme.mult params publicKey cipher1 cipher2)).mx
        ((Scheme.decryptMsg params secretKey cipher1).mx
            * (Scheme.decryptMsg params secretKey cipher2).mx
          + (Ring2Utils.rightShift
                (Ring2Utils.mult
                  (Ring2Utils.mult cipher1.ax cipher2.ax (Scheme.getqi params cipher1.level))
                  publicKey.axStar (Scheme.getPqi params cipher1.level)) params.logP
                * secretKey.sx
              + Ring2Utils.rightShift
                (Ring2Utils.mult
                  (Ring2Utils.mult cipher1.ax cipher2.ax (Scheme.getqi params cipher1.level))
                  publicKey.bxStar (Scheme.getPqi params cipher1.level)) params.logP
              - Ring2Utils.mult cipher1.ax cipher2.ax (Scheme.getqi params cipher1.level)
                * (secretKey.sx * secretKey.sx))) := by
  have hax : (Scheme.mult params publicKey cipher1 cipher2).ax
      = (Ring2Utils.rightShift
            (Ring2Utils.mult
              (Ring2Utils.mult cipher1.ax cipher2.ax (Scheme.getqi params cipher1.level))
              publicKey.axStar (Scheme.getPqi params cipher1.level)) params.logP
          + ((cipher1.ax + cipher1.bx) * (cipher2.ax + cipher2.bx)
              - Ring2Utils.mult cipher1.bx cipher2.bx (Scheme.getqi params cipher1.level)
              - Ring2Utils.mult cipher1.ax cipher2.ax (Scheme.getqi params cipher1.level))).modq
          (Scheme.getqi params cipher1.level) := by
    show Ring2Utils.subAndEqual _ _ _ = _
    unfold Ring2Utils.subAndEqual
    rw [modq_eq_iff, polyModEq_iff]
    simp only [Ring2Utils.subAndEqual, Ring2Utils.addAndEqual, Ring2Utils.multAndEqual,
      Ring2Utils.add, Ring2Utils.rightShiftAndEqual, Ring2Utils.rightShift, toQ_modq, toQ_add,
      toQ_sub, toQ_mul]
    ring
  have hbx : (Scheme.mult params publicKey cipher1 cipher2).bx
      = (Ring2Utils.rightShift
            (Ring2Utils.mult
              (Ring2Utils.mult cipher1.ax cipher2.ax (Scheme.getqi params cipher1.level))
              publicKey.bxStar (Scheme.getPqi params cipher1.level)) params.logP
          + Ring2Utils.mult cipher1.bx cipher2.bx (Scheme.getqi params cipher1.level)).modq
          (Scheme.getqi params cipher1.level) := rfl
  have h1 := toQ_decryptMsg params secretKey cipher1
  have h2 := toQ_decryptMsg params secretKey cipher2
  have hm := toQ_decryptMsg params secretKey (Scheme.mult params publicKey cipher1 cipher2)
  have hlm : (Scheme.mult params publicKey cipher1 cipher2).level = cipher1.level := rfl
  rw [hlm, hax, hbx] at hm
  rw [← hlevel] at h2
  refine ⟨hax, hbx, ?_, ?_⟩
  · rw [polyModEq_iff]
    simp only [Ring2Utils.mult, toQ_modq, toQ_add, toQ_sub, toQ_mul]
    ring
  · rw [polyModEq_iff, hm, toQ_add, toQ_mul, h1, h2]
    simp only [toQ_modq, toQ_add, toQ_sub, toQ_mul]
    simp only [Ring2Utils.mult, toQ_modq, toQ_mul]
    ring

/-- The cross term `d1` for two concrete ciphers at level 1. -/
theorem mult_decryptMsg_witness :
    exCipher1.level = ({ exCipher2 with level := 1 } : Cipher 4).level
    ∧ PolyModEq (Scheme.getqi exParams exCipher1.level)
        ((exCipher1.ax + exCipher1.bx) * (exCipher2.ax + exCipher2.bx)
          - Ring2Utils.mult exCipher1.bx exCipher2.bx (Scheme.getqi exParams exCipher1.level)
          - Ring2Utils.mult exCipher1.ax exCipher2.ax (Scheme.getqi exParams exCipher1.level))
        (exCipher1.ax * exCipher2.bx + exCipher2.ax * exCipher1.bx) :=
  ⟨by decide,
    (mult_decryptMsg exParams exPubKey exSecKey exCipher1 { exCipher2 with level := 1 }
      (by decide)).2.2.1⟩

/-- C4: for every cipher whose coefficients are reduced modulo `q_level`,
`square(c)` returns the same cipher (same `ax`, `bx`, slots and level) as
`mult(c, c)`: the `2 * a * b` path gives the same result as the
`(a+b)*(a+b) - b^2 - a^2` path. -/
theorem square_eq_mult_self (params : Params) (publicKey : PubKey N) (cipher : Cipher N)
    (hax : reducedMod (Scheme.getqi params cipher.level) cipher.ax)
    (hbx : reducedMod (Scheme.getqi params cipher.level) cipher.bx) :
    Scheme.square params publicKey cipher = Scheme.mult params publicKey cipher cipher := by
  have h1 : (Scheme.square params publicKey cipher).ax
      = (Scheme.mult params publicKey cipher cipher).ax := by
    show Ring2Utils.addAndEqual _ _ _ = Ring2Utils.subAndEqual _ _ _
    unfold Ring2Utils.subAndEqual Ring2Utils.addAndEqual
    rw [modq_eq_iff, polyModEq_iff]
    simp only [Ring2Utils.subAndEqual, Ring2Utils.addAndEqual, Ring2Utils.multAndEqual,
      Ring2Utils.add, Ring2Utils.mult, Ring2Utils.square, Ring2Utils.rightShiftAndEqual,
      toQ_modq, toQ_add, toQ_sub, toQ_mul]
    ring
  have h2 : (Scheme.square params publicKey cipher).bx
      = (Scheme.mult params publicKey cipher cipher).bx := rfl
  have h3 : (Scheme.square params publicKey cipher).slots
      = (Scheme.mult params publicKey cipher cipher).slots := rfl
  have h4 : (Scheme.square params publicKey cipher).level
      = (Scheme.mult params publicKey cipher cipher).level := rfl
  cases hs : Scheme.square params publicKey cipher with
  | mk a b sl lv =>
    cases hm : Scheme.mult params publicKey cipher cipher with
    | mk a' b' sl' lv' =>
      rw [hs, hm] at h1 h2 h3 h4
      simp only at h1 h2 h3 h4
      rw [h1, h2, h3, h4]

/-- The two paths on the concrete cipher `exCipher1`, whose coefficients lie
in `[0, 256)`. -/
theorem square_eq_mult_self_witness :
    reducedMod (Scheme.getqi exParams exCipher1.level) exCipher1.ax
    ∧ reducedMod (Scheme.getqi exParams exCipher1.level) exCipher1.bx
    ∧ Scheme.square exParams exPubKey exCipher1
        = Scheme.mult exParams exPubKey exCipher1 exCipher1 :=
  ⟨by decide, by decide,
    square_eq_mult_self exParams exPubKey exCipher1 (by decide) (by decide)⟩

/-! ## Slots and level bookkeeping -/

/-- The loop of `leftRotateAndEqual` never touches slots or level. -/
theorem foldl_rotate_keeps (params : Params) (publicKey : PubKey N) (steps : Int)
    (l : List Nat) (cipher : Cipher N) :
    keepsSlotsAndLevel
      (l.foldl
        (fun (cipher : Cipher N) (i : Nat) =>
          if bit steps (i : Int) then
            Scheme.leftRotateByPo2AndEqual params publicKey cipher (i : Int)
          else cipher)
        cipher)
      cipher := by
  induction l generalizing cipher with
  | nil => exact ⟨rfl, rfl⟩
  | cons i l ih =>
    rw [List.foldl_cons]
    by_cases hb : bit steps (i : Int) = true
    · rw [if_pos hb]
      have h := ih (Scheme.leftRotateByPo2AndEqual params publicKey cipher (i : Int))
      exact ⟨h.1.trans rfl, h.2.trans rfl⟩
    · rw [if_neg hb]
      exact ih cipher

/-- C6: every operator other than `modSwitch` and `modEmbed`, in returning
and in `AndEqual` form, yields a cipher with the slots and the level of its
(first) input; `encryptMsg(msg, level)` yields `slots = msg.slots` and
`level = level`. -/
theorem operators_keep_slots_and_level (params : Params) (publicKey : PubKey N)
    (cipher cipher2 : Cipher N) (cnst degree bits logPow steps : Int) :
    keepsSlotsAndLevel (Scheme.add params cipher cipher2) cipher
    ∧ keepsSlotsAndLevel (Scheme.addAndEqual params cipher cipher2) cipher
    ∧ keepsSlotsAndLevel (Scheme.sub params cipher cipher2) cipher
    ∧ keepsSlotsAndLevel (Scheme.subAndEqual params cipher cipher2) cipher
    ∧ keepsSlotsAndLevel (Scheme.addConst params cipher cnst) cipher
    ∧ keepsSlotsAndLevel (Scheme.addConstAndEqual params cipher cnst) cipher
    ∧ keepsSlotsAndLevel (Scheme.mult params publicKey cipher cipher2) cipher
    ∧ keepsSlotsAndLevel (Scheme.multAndEqual params publicKey cipher cipher2) cipher
    ∧ keepsSlotsAndLevel (Scheme.square params publicKey cipher) cipher
    ∧ keepsSlotsAndLevel (Scheme.squareAndEqual params publicKey cipher) cipher
    ∧ keepsSlotsAndLevel (Scheme.multByConst params cipher cnst) cipher
    ∧ keepsSlotsAndLevel (Scheme.multByConstAndEqual params cipher cnst) cipher
    ∧ keepsSlotsAndLevel (Scheme.multByMonomial cipher degree) cipher
    ∧ keepsSlotsAndLevel (Scheme.multByMonomialAndEqual cipher degree) cipher
    ∧ keepsSlotsAndLevel (Scheme.leftShift params cipher bits) cipher
    ∧ keepsSlotsAndLevel (Scheme.leftShiftAndEqual params cipher bits) cipher
    ∧ keepsSlotsAndLevel (Scheme.doubleAndEqual params cipher) cipher
    ∧ keepsSlotsAndLevel (Scheme.conjugate params publicKey cipher) cipher
    ∧ keepsSlotsAndLevel (Scheme.conjugateAndEqual params publicKey cipher) cipher
    ∧ keepsSlotsAndLevel (Scheme.leftRotateByPo2 params publicKey cipher logPow) cipher
    ∧ keepsSlotsAndLevel (Scheme.leftRotateByPo2AndEqual params publicKey cipher logPow) cipher
    ∧ keepsSlotsAndLevel (Scheme.leftRotate params publicKey cipher steps) cipher
    ∧ keepsSlotsAndLevel (Scheme.leftRotateAndEqual params publicKey cipher steps) cipher
    ∧ (∀ (vx : Poly N) (msg : Message N) (level : Int),
        (Scheme.encryptMsg params publicKey vx msg level).slots = msg.slots
        ∧ (Scheme.encryptMsg params publicKey vx msg level).level = level) := by
  refine ⟨⟨rfl, rfl⟩, ⟨rfl, rfl⟩, ⟨rfl, rfl⟩, ⟨rfl, rfl⟩, ⟨rfl, rfl⟩, ⟨rfl, rfl⟩, ⟨rfl, rfl⟩,
    ⟨rfl, rfl⟩, ⟨rfl, rfl⟩, ⟨rfl, rfl⟩, ⟨rfl, rfl⟩, ⟨rfl, rfl⟩, ⟨rfl, rfl⟩, ⟨rfl, rfl⟩,
    ⟨rfl, rfl⟩, ⟨rfl, rfl⟩, ⟨rfl, rfl⟩, ⟨rfl, rfl⟩, ⟨rfl, rfl⟩, ⟨rfl, rfl⟩, ⟨rfl, rfl⟩,
    ?_, ?_, fun _ _ _ => ⟨rfl, rfl⟩⟩
  · exact foldl_rotate_keeps params publicKey _ _ cipher
  · exact foldl_rotate_keeps params publicKey _ _ cipher

/-! ## Level management -/

/-- C7: for `newLevel > c.level`, `modSwitch(c, newLevel)` has level
`newLevel`, the slots of `c`, and every coefficient of `c.ax` and `c.bx`
shifted right by exactly `logp * (newLevel - c.level)` bits; `modSwitchOne(c)`
is `modSwitch(c, c.level + 1)`; a cipher encrypted at level 1 that goes through
`square, modSwitchOne, square, modSwitchOne` ends at level 3. -/
theorem modSwitch_shifts (params : Params) (cipher : Cipher N) (newLevel : Int)
    (hnew : cipher.level < newLevel) (hlogp : 0 ≤ params.logp) :
    (Scheme.modSwitch params cipher newLevel).level = newLevel
    ∧ (Scheme.modSwitch params cipher newLevel).slots = cipher.slots
    ∧ (∃ n : Nat, (n : Int) = params.logp * (newLevel - cipher.level)
        ∧ (∀ i : Fin N, (Scheme.modSwitch params cipher newLevel).ax.coeff i
            = cipher.ax.coeff i >>> n)
        ∧ (∀ i : Fin N, (Scheme.modSwitch params cipher newLevel).bx.coeff i
            = cipher.bx.coeff i >>> n))
    ∧ Scheme.modSwitchOne params cipher = Scheme.modSwitch params cipher (cipher.level + 1)
    ∧ (∀ (publicKey : PubKey N) (vx : Poly N) (msg : Message N),
        (Scheme.modSwitchOne params (Scheme.square params publicKey
          (Scheme.modSwitchOne params (Scheme.square params publicKey
            (Scheme.encryptMsg params publicKey vx msg 1))))).level = 3) := by
  refine ⟨rfl, rfl, ⟨(params.logp * (newLevel - cipher.level)).toNat, ?_, fun _ => rfl,
    fun _ => rfl⟩, rfl, fun _ _ _ => rfl⟩
  have h : 0 ≤ params.logp * (newLevel - cipher.level) :=
    Int.mul_nonneg hlogp (by omega)
  exact Int.toNat_of_nonneg h

/-- Switching `exCipher1` from level 1 to level 2 shifts by `logp = 2` bits. -/
theorem modSwitch_shifts_witness :
    exCipher1.level < 2 ∧ 0 ≤ exParams.logp
    ∧ (Scheme.modSwitch exParams exCipher1 2).level = 2
    ∧ (Scheme.modSwitch exParams exCipher1 2).ax = ⟨![2, 50, 0, 19]⟩
    ∧ (Scheme.modSwitch exParams exCipher1 2).bx = ⟨![0, 63, 4, 2]⟩ :=
  ⟨by decide, by decide, (modSwitch_shifts exParams exCipher1 2 (by decide) (by decide)).1,
    by decide, by decide⟩

/-- C8 (as stated, refuted): `modSwitchOne` on a cipher at the last level
`L = 4` returns a cipher, and its level `5` lies outside `[1, L]`; so does
`modSwitch` with `newLevel = 6 > L` on a cipher at level 1. -/
theorem modSwitch_past_L_counterexample :
    exCipherL.level = exParams.L
    ∧ Scheme.modSwitchOne exParams exCipherL = ⟨⟨![0, 0, 0, 0]⟩, ⟨![0, 0, 0, 0]⟩, 2, 5⟩
    ∧ ¬ ((Scheme.modSwitchOne exParams exCipherL).level ≤ exParams.L)
    ∧ exParams.L < 6
    ∧ (Scheme.modSwitch exParams exCipher1 6).level = 6
    ∧ ¬ ((Scheme.modSwitch exParams exCipher1 6).level ≤ exParams.L) := by
  decide

/-- C8 (amended): `modSwitch` makes no check of the level: for every cipher and
every `newLevel`, also past `L` or from a cipher at level `L`, it returns a
cipher with level `newLevel` and the slots of its input, and `modSwitchOne`
one with level `c.level + 1`; the returned level lies in `[1, L]` exactly when
`newLevel` does. -/
theorem modSwitch_no_level_check (params : Params) (cipher : Cipher N) (newLevel : Int) :
    (Scheme.modSwitch params cipher newLevel).level = newLevel
    ∧ (Scheme.modSwitch params cipher newLevel).slots = cipher.slots
    ∧ (Scheme.modSwitchOne params cipher).level = cipher.level + 1
    ∧ (Scheme.modSwitchOne params cipher).slots = cipher.slots
    ∧ ((1 ≤ (Scheme.modSwitch params cipher newLevel).level
          ∧ (Scheme.modSwitch params cipher newLevel).level ≤ params.L)
        ↔ (1 ≤ newLevel ∧ newLevel ≤ params.L))
    ∧ (cipher.level = params.L → params.L < (Scheme.modSwitchOne params cipher).level) := by
  refine ⟨rfl, rfl, rfl, rfl, Iff.rfl, ?_⟩
  intro h
  show params.L < cipher.level + 1
  omega

/-- C9 (as stated, refuted): `add` applied to a cipher at level 1 and a cipher
at level 2 returns a cipher, the one computed under the modulus `q_1 = 256` of
the first operand. -/
theorem add_mismatched_levels_counterexample :
    exCipher1.level ≠ exCipher2.level
    ∧ Scheme.getqi exParams exCipher1.level = 256
    ∧ Scheme.getqi exParams exCipher2.level = 64
    ∧ Scheme.add exParams exCipher1 exCipher2
        = ⟨Ring2Utils.add exCipher1.ax exCipher2.ax 256,
            Ring2Utils.add exCipher1.bx exCipher2.bx 256, exCipher1.slots, exCipher1.level⟩
    ∧ Scheme.add exParams exCipher1 exCipher2
        = ⟨⟨![70, 202, 36, 84]⟩, ⟨![1, 49, 79, 21]⟩, 2, 1⟩ := by
  decide

/-- C9 (amended): the binary operators make no check of the levels: `add`,
`sub`, `mult` and their `AndEqual` forms read the second operand's polynomials
only, so for every second level (and slot count) they return the same cipher,
computed under the modulus `q` of the first operand's level and carrying the
first operand's slots and level. -/
theorem binary_operators_ignore_second_level (params : Params) (publicKey : PubKey N)
    (cipher1 cipher2 : Cipher N) (slots2 level2 : Int) :
    Scheme.add params cipher1 ⟨cipher2.ax, cipher2.bx, slots2, level2⟩
      = Scheme.add params cipher1 cipher2
    ∧ Scheme.addAndEqual params cipher1 ⟨cipher2.ax, cipher2.bx, slots2, level2⟩
      = Scheme.addAndEqual params cipher1 cipher2
    ∧ Scheme.sub params cipher1 ⟨cipher2.ax, cipher2.bx, slots2, level2⟩
      = Scheme.sub params cipher1 cipher2
    ∧ Scheme.subAndEqual params cipher1 ⟨cipher2.ax, cipher2.bx, slots2, level2⟩
      = Scheme.subAndEqual params cipher1 cipher2
    ∧ Scheme.mult params publicKey cipher1 ⟨cipher2.ax, cipher2.bx, slots2, level2⟩
      = Scheme.mult params publicKey cipher1 cipher2
    ∧ Scheme.multAndEqual params publicKey cipher1 ⟨cipher2.ax, cipher2.bx, slots2, level2⟩
      = Scheme.multAndEqual params publicKey cipher1 cipher2
    ∧ Scheme.add params cipher1 cipher2
      = ⟨Ring2Utils.add cipher1.ax cipher2.ax (Scheme.getqi params cipher1.level),
          Ring2Utils.add cipher1.bx cipher2.bx (Scheme.getqi params cipher1.level),
          cipher1.slots, cipher1.level⟩
    ∧ Scheme.sub params cipher1 cipher2
      = ⟨Ring2Utils.sub cipher1.ax cipher2.ax (Scheme.getqi params cipher1.level),
          Ring2Utils.sub cipher1.bx cipher2.bx (Scheme.getqi params cipher1.level),
          cipher1.slots, cipher1.level⟩
    ∧ keepsSlotsAndLevel (Scheme.mult params publicKey cipher1 cipher2) cipher1 :=
  ⟨rfl, rfl, rfl, rfl, rfl, rfl, rfl, rfl, rfl, rfl⟩

/-! ## Adding a constant -/

/-- On its documented domain `0 ≤ a, b < n`, `AddMod` is addition modulo `n`. -/
theorem AddMod_eq_emod (a b n : Int) (ha : 0 ≤ a ∧ a < n) (hb : 0 ≤ b ∧ b < n) :
    AddMod a b n = (a + b) % n := by
  unfold AddMod
  by_cases h : n ≤ a + b
  · rw [if_pos h]
    have h1 : (a + b) % n = (a + b - n) % n := by
      have : a + b = (a + b - n) + n := by omega
      rw [this, Int.add_emod_self, ← this]
    rw [h1, Int.emod_eq_of_lt (by omega) (by omega)]
  · rw [if_neg h, Int.emod_eq_of_lt (by omega) (by omega)]

/-- C10 (as stated, refuted): on a cipher with coefficients reduced modulo
`q = 256`, `addConst` with `k = -1` leaves the constant coefficient `-1`, not
`(0 + -1) mod 256 = 255`, and with `k = 512 ≥ q` it leaves `256`, not `0`. -/
theorem addConst_counterexample :
    reducedMod (Scheme.getqi exParams exCipher1.level) exCipher1.ax
    ∧ reducedMod (Scheme.getqi exParams exCipher1.level) exCipher1.bx
    ∧ Scheme.getqi exParams exCipher1.level = 256
    ∧ (Scheme.addConst exParams exCipher1 (-1)).bx = ⟨![-1, 255, 16, 9]⟩
    ∧ (exCipher1.bx.coeff 0 + -1) % Scheme.getqi exParams exCipher1.level = 255
    ∧ (Scheme.addConst exParams exCipher1 512).bx = ⟨![256, 255, 16, 9]⟩
    ∧ (exCipher1.bx.coeff 0 + 512) % Scheme.getqi exParams exCipher1.level = 0 := by
  decide

/-- Whatever its operands, `AddMod` returns a value congruent to their sum. -/
theorem AddMod_modEq (a b n : Int) : AddMod a b n ≡ a + b [ZMOD n] := by
  unfold AddMod
  by_cases h : n ≤ a + b
  · rw [if_pos h]
    apply Int.ModEq.symm
    rw [Int.modEq_iff_dvd]
    exact ⟨-1, by ring⟩
  · rw [if_neg h]

/-- C10 (amended): for a cipher whose coefficients are reduced modulo
`q = q_level` and every integer constant `k`, `addConst(c, k)` returns a cipher
whose `bx` has a constant coefficient congruent to `c.bx[0] + k` modulo `q`,
equal to `(c.bx[0] + k) mod q` when `0 ≤ k < q`, and every other coefficient
that of `c.bx`, whose `ax` is `c.ax` and whose slots and level are those of
`c`; `addConstAndEqual` leaves `c` in that same state. -/
theorem addConst_in_range (params : Params) (cipher : Cipher N) (cnst : Int)
    (hax : reducedMod (Scheme.getqi params cipher.level) cipher.ax)
    (hbx : reducedMod (Scheme.getqi params cipher.level) cipher.bx) :
    (∀ i : Fin N, i.val = 0 →
        (Scheme.addConst params cipher cnst).bx.coeff i
          ≡ cipher.bx.coeff i + cnst [ZMOD Scheme.getqi params cipher.level])
    ∧ (0 ≤ cnst ∧ cnst < Scheme.getqi params cipher.level →
        ∀ i : Fin N, i.val = 0 →
          (Scheme.addConst params cipher cnst).bx.coeff i
            = (cipher.bx.coeff i + cnst) % Scheme.getqi params cipher.level)
    ∧ (∀ i : Fin N, i.val ≠ 0 →
        (Scheme.addConst params cipher cnst).bx.coeff i = cipher.bx.coeff i)
    ∧ (Scheme.addConst params cipher cnst).ax = cipher.ax
    ∧ (Scheme.addConst params cipher cnst).slots = cipher.slots
    ∧ (Scheme.addConst params cipher cnst).level = cipher.level
    ∧ Scheme.addConstAndEqual params cipher cnst = Scheme.addConst params cipher cnst := by
  refine ⟨?_, ?_, ?_, rfl, rfl, rfl, rfl⟩
  · intro i hi
    show (if i.val = 0 then AddMod (cipher.bx.coeff i) cnst (Scheme.getqi params cipher.level)
      else cipher.bx.coeff i) ≡ _ [ZMOD _]
    rw [if_pos hi]
    exact AddMod_modEq _ _ _
  · intro hcnst i hi
    show (if i.val = 0 then AddMod (cipher.bx.coeff i) cnst (Scheme.getqi params cipher.level)
      else cipher.bx.coeff i) = _
    rw [if_pos hi, AddMod_eq_emod _ _ _ (hbx i) hcnst]
  · intro i hi
    show (if i.val = 0 then AddMod (cipher.bx.coeff i) cnst (Scheme.getqi params cipher.level)
      else cipher.bx.coeff i) = _
    rw [if_neg hi]

/-- Adding `k = 255` to `exCipher1` (`q = 256`, `bx[0] = 0`, `bx[1] = 255`). -/
theorem addConst_in_range_witness :
    reducedMod (Scheme.getqi exParams exCipher1.level) exCipher1.ax
    ∧ reducedMod (Scheme.getqi exParams exCipher1.level) exCipher1.bx
    ∧ (0 ≤ (255 : Int) ∧ (255 : Int) < Scheme.getqi exParams exCipher1.level)
    ∧ (Scheme.addConst exParams exCipher1 255).bx = ⟨![255, 255, 16, 9]⟩
    ∧ (∀ i : Fin 4, i.val = 0 →
        (Scheme.addConst exParams exCipher1 255).bx.coeff i
          = (exCipher1.bx.coeff i + 255) % Scheme.getqi exParams exCipher1.level) :=
  ⟨by decide, by decide, by decide, by decide,
    (addConst_in_range exParams exCipher1 255 (by decide) (by decide)).2.1 (by decide)⟩

/-! ## Rotation -/

/-- Whatever `Nh` is, `1 % Nh` is `0` or `1`, whose logarithm truncates to `0`. -/
theorem log2_tmod_one (n : Int) : log2 (Int.tmod 1 n) = 0 := by
  have h : Int.tmod 1 n = 0 ∨ Int.tmod 1 n = 1 := by
    have h0 : 0 ≤ Int.tmod 1 n := Int.tmod_nonneg n (by decide)
    rcases Int.lt_trichotomy n 0 with hn | hn | hn
    · have h1 : Int.tmod 1 n = Int.tmod 1 (-n) := by rw [Int.tmod_neg]
      have h2 : Int.tmod 1 (-n) < -n := Int.tmod_lt_of_pos 1 (by omega)
      by_cases h3 : (1 : Int) < -n
      · right
        rw [h1]
        exact Int.tmod_eq_of_lt (by decide) h3
      · have : -n = 1 := by omega
        left
        rw [h1, this]
        exact Int.tmod_one 1
    · right
      rw [hn]
      exact Int.tmod_zero 1
    · by_cases h3 : (1 : Int) < n
      · right
        exact Int.tmod_eq_of_lt (by decide) h3
      · have : n = 1 := by omega
        left
        rw [this]
        exact Int.tmod_one 1
  rcases h with h | h <;> rw [h] <;> rfl

/-- C5 (what the code does): the loop of `leftRotateAndEqual` stops before the
highest set bit of `steps`. `leftRotate(c, 1)` returns `c` unchanged for every
input, and `leftRotate(c, 3)` is `leftRotateByPo2(c, 0)` alone when `3 < Nh`;
on the concrete ciphers `leftRotateByPo2(c, 0)` differs from `c`, and
`leftRotateByPo2(leftRotateByPo2(c, 0), 1)` from `leftRotate(c, 3)`. -/
theorem leftRotate_skips_highest_bit :
    (∀ (M : Nat) (params : Params) (publicKey : PubKey M) (cipher : Cipher M),
      Scheme.leftRotate params publicKey cipher 1 = cipher)
    ∧ (∀ (M : Nat) (params : Params) (publicKey : PubKey M) (cipher : Cipher M),
      3 < params.Nh →
      Scheme.leftRotate params publicKey cipher 3
        = Scheme.leftRotateByPo2 params publicKey cipher 0)
    ∧ Scheme.leftRotate exParams exPubKey exCipher1 1 = exCipher1
    ∧ (Scheme.leftRotateByPo2 exParams exPubKey exCipher1 0).bx = ⟨![0, 1, 16, 247]⟩
    ∧ Scheme.leftRotate exParams exPubKey exCipher1 1
        ≠ Scheme.leftRotateByPo2 exParams exPubKey exCipher1 0
    ∧ Scheme.leftRotate exParams8 exPubKey8 exCipher8 3
        = Scheme.leftRotateByPo2 exParams8 exPubKey8 exCipher8 0
    ∧ Scheme.leftRotate exParams8 exPubKey8 exCipher8 3
        ≠ Scheme.leftRotateByPo2 exParams8 exPubKey8
            (Scheme.leftRotateByPo2 exParams8 exPubKey8 exCipher8 0) 1
    ∧ Scheme.leftRotate exParams exPubKey exCipher1 0 = exCipher1 := by
  refine ⟨?_, ?_, by decide, by decide, by decide, ?_, ?_, by decide⟩
  · intro M params publicKey cipher
    show List.foldl _ cipher (List.range (log2 (Int.tmod 1 params.Nh)).toNat) = cipher
    rw [log2_tmod_one]
    rfl
  · intro M params publicKey cipher h
    have h3 : Int.tmod 3 params.Nh = 3 := Int.tmod_eq_of_lt (by decide) h
    show List.foldl _ cipher (List.range (log2 (Int.tmod 3 params.Nh)).toNat) = _
    rw [h3]
    rfl
  · rfl
  · have h1 : (Scheme.leftRotate exParams8 exPubKey8 exCipher8 3).bx.coeff 1 = 54 := by
      decide
    have h2 : (Scheme.leftRotateByPo2 exParams8 exPubKey8
        (Scheme.leftRotateByPo2 exParams8 exPubKey8 exCipher8 0) 1).bx.coeff 1 = 207 := by
      decide
    intro h
    rw [h, h2] at h1
    exact absurd h1 (by decide)

/-! ## Moduli of a level -/

/-- Under the chain of moduli, the modulus of a level in `[1, L]` is
`2^getLogqi(level)`, and the special modulus is `2^logP` times it. -/
theorem chain_getqi (params : Params) (level : Int)
    (hlevel : 1 ≤ level ∧ level ≤ params.L) (h : chainContract params) :
    Scheme.getqi params level = 2 ^ (Scheme.getLogqi params level).toNat
    ∧ Scheme.getPqi params level = 2 ^ params.logP.toNat * Scheme.getqi params level := by
  have hj : ((params.L - level).toNat : Int) = params.L - level :=
    Int.toNat_of_nonneg (by omega)
  have hlt : (params.L - level).toNat < params.L.toNat := by omega
  have h' := h (params.L - level).toNat hlt
  rw [hj] at h'
  unfold Scheme.getqi Scheme.getPqi Scheme.getLogqi
  refine ⟨?_, h'.2⟩
  rw [h'.1]
  congr 2
  ring

/-- C13 (as stated, refuted): parameters that satisfy `qi[j] = 2^(logq - logp*j)`
and `Pqi[j] = P*qi[j]`, for which `getqi(1) = 4` while `getLogqi(1) = 8`. -/
theorem getqi_getLogqi_counterexample :
    statedContract exParamsStated
    ∧ (1 ≤ (1 : Int) ∧ (1 : Int) ≤ exParamsStated.L)
    ∧ Scheme.getqi exParamsStated 1 = 4
    ∧ Scheme.getLogqi exParamsStated 1 = 8
    ∧ Scheme.getqi exParamsStated 1 ≠ 2 ^ (Scheme.getLogqi exParamsStated 1).toNat := by
  decide

/-- C13 (amended): for every level in `[1, L]`, `getqi(level) = 2^getLogqi(level)`
and `getPqi(level) = 2^logP * getqi(level)` whenever the tables hold the chain
`qi[j] = 2^(logq - logp*(L - 1 - j))`, `Pqi[j] = P*qi[j]`; under the contract
`qi[j] = 2^(logq - logp*j)` the modulus `getqi(level)` is
`2^(logq - logp*(L - level))` instead, and `getPqi(level) = 2^logP * getqi(level)`
still holds. -/
theorem getqi_eq_two_pow_getLogqi (params : Params) (level : Int)
    (hlevel : 1 ≤ level ∧ level ≤ params.L) :
    (chainContract params →
      Scheme.getqi params level = 2 ^ (Scheme.getLogqi params level).toNat
      ∧ Scheme.getPqi params level = 2 ^ params.logP.toNat * Scheme.getqi params level)
    ∧ (statedContract params →
      Scheme.getqi params level
        = 2 ^ (params.logq - params.logp * (params.L - level)).toNat
      ∧ Scheme.getPqi params level = 2 ^ params.logP.toNat * Scheme.getqi params level) := by
  refine ⟨chain_getqi params level hlevel, ?_⟩
  have hj : ((params.L - level).toNat : Int) = params.L - level :=
    Int.toNat_of_nonneg (by omega)
  have hlt : (params.L - level).toNat < params.L.toNat := by omega
  intro h
  have h' := h (params.L - level).toNat hlt
  rw [hj] at h'
  exact ⟨h'.1, h'.2⟩

/-- The chain of `exParams` at level 2: `getqi = 64 = 2^6`, `getPqi = 8 * 64`. -/
theorem getqi_eq_two_pow_getLogqi_witness :
    (1 ≤ (2 : Int) ∧ (2 : Int) ≤ exParams.L)
    ∧ chainContract exParams
    ∧ Scheme.getqi exParams 2 = 2 ^ (Scheme.getLogqi exParams 2).toNat
    ∧ Scheme.getPqi exParams 2 = 2 ^ exParams.logP.toNat * Scheme.getqi exParams 2 :=
  ⟨by decide, by decide,
    (getqi_eq_two_pow_getLogqi exParams 2 (by decide)).1 (by decide)⟩

/-! ## The RLWE instance -/

/-- C17 (what the code does): `rlweInstance` adds no error polynomial: for
every key, every sampled `v` and every modulus it returns exactly
`(v * pk.ax mod q, v * pk.bx mod q)`, so that both components are congruent to
the multiples `v * pk.ax` and `v * pk.bx` of the public key and any `e0`, `e1`
with `a = v * pk.ax + e1 mod q`, `b = v * pk.bx + e0 mod q` are congruent to zero. -/
theorem rlweInstance_adds_no_error :
    (∀ (M : Nat) (publicKey : PubKey M) (vx : Poly M) (qi : Int),
      Scheme.rlweInstance publicKey vx qi
        = ((vx * publicKey.ax).modq qi, (vx * publicKey.bx).modq qi))
    ∧ (∀ (M : Nat) (publicKey : PubKey M) (vx : Poly M) (qi : Int),
      PolyModEq qi (Scheme.rlweInstance publicKey vx qi).1 (vx * publicKey.ax)
      ∧ PolyModEq qi (Scheme.rlweInstance publicKey vx qi).2 (vx * publicKey.bx))
    ∧ (∀ (M : Nat) (publicKey : PubKey M) (vx e0 e1 : Poly M) (qi : Int),
      (Scheme.rlweInstance publicKey vx qi).1 = (vx * publicKey.ax + e1).modq qi →
      (Scheme.rlweInstance publicKey vx qi).2 = (vx * publicKey.bx + e0).modq qi →
      PolyModEq qi e1 0 ∧ PolyModEq qi e0 0)
    ∧ Scheme.rlweInstance exPubKey exVx 256
        = (⟨![6, 254, 0, 3]⟩, ⟨![9, 248, 255, 8]⟩)
    ∧ (exVx * exPubKey.ax, exVx * exPubKey.bx)
        = ((⟨![6, -2, 0, 3]⟩ : Poly 4), (⟨![9, -8, -1, 8]⟩ : Poly 4)) := by
  refine ⟨fun _ _ _ _ => rfl, ?_, ?_, by decide, by decide⟩
  · intro M publicKey vx qi
    exact ⟨modq_modEq qi _, modq_modEq qi _⟩
  · intro M publicKey vx e0 e1 qi h1 h0
    have h1' : (vx * publicKey.ax).modq qi = (vx * publicKey.ax + e1).modq qi := h1
    have h0' : (vx * publicKey.bx).modq qi = (vx * publicKey.bx + e0).modq qi := h0
    rw [modq_eq_iff, polyModEq_iff, toQ_add] at h1' h0'
    constructor
    · rw [polyModEq_iff]
      have : toQ qi e1 = 0 := by
        have := h1'
        exact (add_right_eq_self.mp this.symm)
      rw [this]
      rfl
    · rw [polyModEq_iff]
      have : toQ qi e0 = 0 := by
        have := h0'
        exact (add_right_eq_self.mp this.symm)
      rw [this]
      rfl

/-! ## Returning and in-place variants -/

theorem Ring2Utils_mult_comm (p1 p2 : Poly N) (mod : Int) :
    Ring2Utils.mult p1 p2 mod = Ring2Utils.mult p2 p1 mod := by
  unfold Ring2Utils.mult
  rw [mul_comm]

theorem Ring2Utils_multAndEqual_comm (p1 p2 : Poly N) (mod : Int) :
    Ring2Utils.multAndEqual p1 p2 mod = Ring2Utils.multAndEqual p2 p1 mod := by
  unfold Ring2Utils.multAndEqual
  rw [mul_comm]

/-- C18: for `mult`, `square`, `conjugate` and `leftRotateByPo2`, the `AndEqual`
variant leaves its first argument equal (in `ax`, `bx`, slots and level) to the
cipher that the returning variant produces on the same inputs, and
`multAndEqual` leaves its second argument as it was. -/
theorem andEqual_variants_agree (params : Params) (publicKey : PubKey N)
    (cipher cipher2 : Cipher N) (logPow : Int) :
    Scheme.multAndEqual params publicKey cipher cipher2
      = Scheme.mult params publicKey cipher cipher2
    ∧ (multAndEqualBoth params publicKey (cipher, cipher2)).1
      = Scheme.mult params publicKey cipher cipher2
    ∧ (multAndEqualBoth params publicKey (cipher, cipher2)).2 = cipher2
    ∧ Scheme.squareAndEqual params publicKey cipher = Scheme.square params publicKey cipher
    ∧ Scheme.conjugateAndEqual params publicKey cipher
      = Scheme.conjugate params publicKey cipher
    ∧ Scheme.leftRotateByPo2AndEqual params publicKey cipher logPow
      = Scheme.leftRotateByPo2 params publicKey cipher logPow := by
  refine ⟨rfl, rfl, rfl, ?_, rfl, rfl⟩
  simp only [Scheme.squareAndEqual, Scheme.square, Ring2Utils_mult_comm cipher.bx cipher.ax]

/-! ## Commutativity of `mult` -/

/-- C19: for two ciphers with the same level and the same slots, `mult(c1, c2)`
and `mult(c2, c1)` return the same cipher. -/
theorem mult_comm_ciphers (params : Params) (publicKey : PubKey N) (cipher1 cipher2 : Cipher N)
    (hlevel : cipher1.level = cipher2.level) (hslots : cipher1.slots = cipher2.slots) :
    Scheme.mult params publicKey cipher1 cipher2
      = Scheme.mult params publicKey cipher2 cipher1 := by
  simp only [Scheme.mult]
  rw [← hlevel, ← hslots, Ring2Utils_mult_comm cipher2.bx cipher1.bx,
    Ring2Utils_mult_comm cipher2.ax cipher1.ax,
    Ring2Utils_multAndEqual_comm
      (Ring2Utils.add cipher2.ax cipher2.bx (Scheme.getqi params cipher1.level))]

/-- Two concrete ciphers at level 1 with the same slots, multiplied both ways. -/
theorem mult_comm_ciphers_witness :
    exCipher1.level = ({ exCipher2 with level := 1 } : Cipher 4).level
    ∧ exCipher1.slots = ({ exCipher2 with level := 1 } : Cipher 4).slots
    ∧ Scheme.mult exParams exPubKey exCipher1 { exCipher2 with level := 1 }
      = Scheme.mult exParams exPubKey { exCipher2 with level := 1 } exCipher1 :=
  ⟨by decide, by decide,
    mult_comm_ciphers exParams exPubKey exCipher1 { exCipher2 with level := 1 }
      (by decide) (by decide)⟩

/-! ## Composition of `modSwitch` -/

theorem rightShift_rightShift (x : Poly N) (a b : Int) (ha : 0 ≤ a) (hb : 0 ≤ b) :
    Ring2Utils.rightShift (Ring2Utils.rightShift x a) b = Ring2Utils.rightShift x (a + b) := by
  ext i
  show (x.coeff i >>> a.toNat) >>> b.toNat = x.coeff i >>> (a + b).toNat
  rw [Int.toNat_add ha hb, Int.shiftRight_add]

theorem modSwitch_modSwitch (params : Params) (cipher : Cipher N) (l1 l2 : Int)
    (h1 : cipher.level ≤ l1) (h2 : l1 ≤ l2) (hlogp : 0 ≤ params.logp) :
    Scheme.modSwitch params (Scheme.modSwitch params cipher l1) l2
      = Scheme.modSwitch params cipher l2 := by
  have ha : 0 ≤ params.logp * (l1 - cipher.level) := Int.mul_nonneg hlogp (by omega)
  have hb : 0 ≤ params.logp * (l2 - l1) := Int.mul_nonneg hlogp (by omega)
  have hsum : params.logp * (l1 - cipher.level) + params.logp * (l2 - l1)
      = params.logp * (l2 - cipher.level) := by ring
  unfold Scheme.modSwitch
  simp only
  rw [rightShift_rightShift _ _ _ ha hb, rightShift_rightShift _ _ _ ha hb, hsum]

/-- C20: for levels `c.level ≤ l1 ≤ l2`, `modSwitch(modSwitch(c, l1), l2)` is
`modSwitch(c, l2)`; applying `modSwitchOne` `k` times to `c` gives
`modSwitch(c, c.level + k)`; `modSwitch(c, c.level)` returns `c` unchanged. -/
theorem modSwitch_composes (params : Params) (cipher : Cipher N) (l1 l2 : Int)
    (h1 : cipher.level ≤ l1) (h2 : l1 ≤ l2) (hlogp : 0 ≤ params.logp) :
    Scheme.modSwitch params (Scheme.modSwitch params cipher l1) l2
      = Scheme.modSwitch params cipher l2
    ∧ (∀ i : Fin N,
        (Scheme.modSwitch params (Scheme.modSwitch params cipher l1) l2).ax.coeff i
          = (Scheme.modSwitch params cipher l2).ax.coeff i
        ∧ (Scheme.modSwitch params (Scheme.modSwitch params cipher l1) l2).bx.coeff i
          = (Scheme.modSwitch params cipher l2).bx.coeff i)
    ∧ (∀ k : Nat, (Scheme.modSwitchOne params)^[k] cipher
        = Scheme.modSwitch params cipher (cipher.level + (k : Int)))
    ∧ Scheme.modSwitch params cipher cipher.level = cipher := by
  have hcomp := modSwitch_modSwitch params cipher l1 l2 h1 h2 hlogp
  have hid : Scheme.modSwitch params cipher cipher.level = cipher := by
    unfold Scheme.modSwitch
    have hz : params.logp * (cipher.level - cipher.level) = 0 := by ring
    have hx : ∀ x : Poly N, Ring2Utils.rightShift x 0 = x := by
      intro x
      ext i
      show x.coeff i >>> (0 : Int).toNat = x.coeff i
      rw [Int.shiftRight_eq_div_pow]
      simp
    simp only [hz, hx]
  refine ⟨hcomp, ?_, ?_, hid⟩
  · intro i
    rw [hcomp]
    exact ⟨rfl, rfl⟩
  · intro k
    induction k with
    | zero =>
      simp only [Function.iterate_zero, id_eq, Nat.cast_zero, add_zero]
      exact hid.symm
    | succ k ih =>
      rw [Function.iterate_succ_apply', ih]
      show Scheme.modSwitch params (Scheme.modSwitch params cipher (cipher.level + (k : Int)))
        (cipher.level + (k : Int) + 1) = _
      rw [modSwitch_modSwitch params cipher _ _ (by omega) (by omega) hlogp]
      congr 1
      push_cast
      ring

/-- Switching `exCipher1` from level 1 to 2 and then to 4, and directly to 4. -/
theorem modSwitch_composes_witness :
    exCipher1.level ≤ 2 ∧ (2 : Int) ≤ 4 ∧ 0 ≤ exParams.logp
    ∧ Scheme.modSwitch exParams (Scheme.modSwitch exParams exCipher1 2) 4
      = Scheme.modSwitch exParams exCipher1 4
    ∧ Scheme.modSwitch exParams exCipher1 4 = ⟨⟨![0, 3, 0, 1]⟩, ⟨![0, 3, 0, 0]⟩, 2, 4⟩ :=
  ⟨by decide, by decide, by decide,
    (modSwitch_composes exParams exCipher1 2 4 (by decide) (by decide) (by decide)).1,
    by decide⟩

/-! ## Mod-embedding -/

/-- Reduction modulo a multiple `q'` of `q` does not change the class modulo `q`. -/
theorem toQ_modq_of_dvd (q q' : Int) (h : q ∣ q') (x : Poly N) :
    toQ q (x.modq q') = toQ q x :=
  (polyModEq_iff q _ _).mp (fun i => Int.ModEq.of_dvd h (Int.mod_modEq _ _))

/-- Truncation to `k` bits keeps every coefficient modulo `2^k`. -/
theorem truncate_modEq (x : Poly N) (logMod : Int) :
    PolyModEq (2 ^ logMod.toNat) (Ring2Utils.truncate x logMod) x := by
  intro i
  show Int.bmod (x.coeff i) (2 ^ logMod.toNat) % (2 ^ logMod.toNat : Int)
    = x.coeff i % (2 ^ logMod.toNat : Int)
  have h := @Int.bmod_emod (x.coeff i) (2 ^ logMod.toNat)
  rw [Nat.cast_pow, Nat.cast_ofNat] at h
  exact h

/-- C14: for a cipher at a level in `[1, L)` and `newLevel` in `(c.level, L]`,
under the chain of moduli (`getqi(l) = 2^getLogqi(l)`), `modEmbed(c, newLevel)`
has level `newLevel`, the slots of `c` and coefficients congruent to those of
`c` modulo `q_newLevel`, so that its decryption is congruent to the decryption
of `c` modulo `q_newLevel`; `modEmbed(c)` is `modEmbed(c, c.level + 1)`. -/
theorem modEmbed_congruent (params : Params) (secretKey : SecKey N) (cipher : Cipher N)
    (newLevel : Int)
    (hlevel : 1 ≤ cipher.level ∧ cipher.level < newLevel ∧ newLevel ≤ params.L)
    (hlogp : 0 ≤ params.logp) (hchain : chainContract params) :
    (Scheme.modEmbed params cipher newLevel).level = newLevel
    ∧ (Scheme.modEmbed params cipher newLevel).slots = cipher.slots
    ∧ (∀ i : Fin N,
        (Scheme.modEmbed params cipher newLevel).ax.coeff i
          ≡ cipher.ax.coeff i [ZMOD Scheme.getqi params newLevel]
        ∧ (Scheme.modEmbed params cipher newLevel).bx.coeff i
          ≡ cipher.bx.coeff i [ZMOD Scheme.getqi params newLevel])
    ∧ PolyModEq (Scheme.getqi params newLevel)
        (Scheme.decryptMsg params secretKey (Scheme.modEmbed params cipher newLevel)).mx
        (Scheme.decryptMsg params secretKey cipher).mx
    ∧ Scheme.modEmbedOne params cipher = Scheme.modEmbed params cipher (cipher.level + 1) := by
  have hnew := (chain_getqi params newLevel ⟨by omega, hlevel.2.2⟩ hchain).1
  have hold := (chain_getqi params cipher.level ⟨hlevel.1, by omega⟩ hchain).1
  have hle : Scheme.getLogqi params newLevel ≤ Scheme.getLogqi params cipher.level := by
    unfold Scheme.getLogqi
    have : params.logp * (cipher.level - 1) ≤ params.logp * (newLevel - 1) :=
      Int.mul_le_mul_of_nonneg_left (by omega) hlogp
    omega
  have hdvd : Scheme.getqi params newLevel ∣ Scheme.getqi params cipher.level := by
    rw [hnew, hold]
    exact pow_dvd_pow 2 (by omega)
  have hax : PolyModEq (Scheme.getqi params newLevel)
      (Scheme.modEmbed params cipher newLevel).ax cipher.ax := by
    rw [hnew]
    exact truncate_modEq cipher.ax _
  have hbx : PolyModEq (Scheme.getqi params newLevel)
      (Scheme.modEmbed params cipher newLevel).bx cipher.bx := by
    rw [hnew]
    exact truncate_modEq cipher.bx _
  refine ⟨rfl, rfl, fun i => ⟨hax i, hbx i⟩, ?_, rfl⟩
  have hm := toQ_decryptMsg params secretKey (Scheme.modEmbed params cipher newLevel)
  have hl : (Scheme.modEmbed params cipher newLevel).level = newLevel := rfl
  rw [hl] at hm
  rw [polyModEq_iff, hm, (polyModEq_iff _ _ _).mp hax, (polyModEq_iff _ _ _).mp hbx]
  simp only [Scheme.decryptMsg, Ring2Utils.mult, Ring2Utils.addAndEqual]
  rw [toQ_modq_of_dvd _ _ hdvd, toQ_add, toQ_modq_of_dvd _ _ hdvd, toQ_mul]

/-- Embedding `exCipher1` (level 1, `q = 256`) at level 2 (`q = 64`). -/
theorem modEmbed_congruent_witness :
    (1 ≤ exCipher1.level ∧ exCipher1.level < 2 ∧ (2 : Int) ≤ exParams.L)
    ∧ 0 ≤ exParams.logp
    ∧ chainContract exParams
    ∧ Scheme.modEmbed exParams exCipher1 2 = ⟨⟨![10, 8, 3, 13]⟩, ⟨![0, -1 , 16, 9]⟩, 2, 2⟩
    ∧ PolyModEq (Scheme.getqi exParams 2)
        (Scheme.decryptMsg exParams exSecKey (Scheme.modEmbed exParams exCipher1 2)).mx
        (Scheme.decryptMsg exParams exSecKey exCipher1).mx :=
  ⟨by decide, by decide, by decide, by decide,
    (modEmbed_congruent exParams exSecKey exCipher1 2 (by decide) (by decide)
      (by decide)).2.2.2.1⟩

/-! ## Centring -/

/-- What the subtracting loop leaves, when it ends: a value congruent to `m`
with `2 r ≤ q`, which is `m` itself when `2 m ≤ q` and lies above `-q/2`
otherwise. -/
theorem trueValueSubLoop_sound (q : Int) (hq : 0 < q) (fuel : Nat) (m r : Int)
    (h : Scheme.trueValueSubLoop fuel m q = some r) :
    r ≡ m [ZMOD q] ∧ 2 * r ≤ q ∧ (2 * m ≤ q → r = m) ∧ (q < 2 * m → -q < 2 * r) := by
  induction fuel generalizing m with
  | zero =>
    by_cases hm : 2 * m > q
    · simp [Scheme.trueValueSubLoop, hm] at h
    · simp only [Scheme.trueValueSubLoop, if_neg hm, Option.some.injEq] at h
      subst h
      exact ⟨Int.ModEq.refl _, by omega, fun _ => rfl, fun h => absurd h (by omega)⟩
  | succ fuel ih =>
    by_cases hm : 2 * m > q
    · simp only [Scheme.trueValueSubLoop, if_pos hm] at h
      obtain ⟨hcong, hle, hsame, hgt⟩ := ih (m - q) h
      refine ⟨?_, hle, fun h => absurd h (by omega), ?_⟩
      · refine hcong.trans ?_
        rw [Int.modEq_iff_dvd]
        exact ⟨1, by ring⟩
      · intro _
        by_cases h2 : 2 * (m - q) ≤ q
        · rw [hsame h2]
          omega
        · exact hgt (by omega)
    · simp only [Scheme.trueValueSubLoop, if_neg hm, Option.some.injEq] at h
      subst h
      exact ⟨Int.ModEq.refl _, by omega, fun _ => rfl, fun h => absurd h (by omega)⟩

/-- The subtracting loop ends when `m` subtractions are allowed. -/
theorem trueValueSubLoop_ends (q : Int) (hq : 0 < q) (fuel : Nat) (m : Int)
    (hfuel : m.toNat ≤ fuel) : ∃ r, Scheme.trueValueSubLoop fuel m q = some r := by
  induction fuel generalizing m with
  | zero =>
    have hm : ¬ (2 * m > q) := by omega
    exact ⟨m, by simp [Scheme.trueValueSubLoop, hm]⟩
  | succ fuel ih =>
    by_cases hm : 2 * m > q
    · obtain ⟨r, hr⟩ := ih (m - q) (by omega)
      exact ⟨r, by simp [Scheme.trueValueSubLoop, hm, hr]⟩
    · exact ⟨m, by simp [Scheme.trueValueSubLoop, hm]⟩

/-- What the adding loop leaves, when it ends: a value congruent to `m` with
`-q ≤ 2 r`, which is `m` itself when `-q ≤ 2 m` and lies below `q/2` otherwise. -/
theorem trueValueAddLoop_sound (q : Int) (hq : 0 < q) (fuel : Nat) (m r : Int)
    (h : Scheme.trueValueAddLoop fuel m q = some r) :
    r ≡ m [ZMOD q] ∧ -q ≤ 2 * r ∧ (-q ≤ 2 * m → r = m) ∧ (2 * m < -q → 2 * r < q) := by
  induction fuel generalizing m with
  | zero =>
    by_cases hm : 2 * m < -q
    · simp [Scheme.trueValueAddLoop, hm] at h
    · simp only [Scheme.trueValueAddLoop, if_neg hm, Option.some.injEq] at h
      subst h
      exact ⟨Int.ModEq.refl _, by omega, fun _ => rfl, fun h => absurd h (by omega)⟩
  | succ fuel ih =>
    by_cases hm : 2 * m < -q
    · simp only [Scheme.trueValueAddLoop, if_pos hm] at h
      obtain ⟨hcong, hle, hsame, hlt⟩ := ih (m + q) h
      refine ⟨?_, hle, fun h => absurd h (by omega), ?_⟩
      · refine hcong.trans ?_
        rw [Int.modEq_iff_dvd]
        exact ⟨-1, by ring⟩
      · intro _
        by_cases h2 : -q ≤ 2 * (m + q)
        · rw [hsame h2]
          omega
        · exact hlt (by omega)
    · simp only [Scheme.trueValueAddLoop, if_neg hm, Option.some.injEq] at h
      subst h
      exact ⟨Int.ModEq.refl _, by omega, fun _ => rfl, fun h => absurd h (by omega)⟩

/-- The adding loop ends when `-m` additions are allowed. -/
theorem trueValueAddLoop_ends (q : Int) (hq : 0 < q) (fuel : Nat) (m : Int)
    (hfuel : (-m).toNat ≤ fuel) : ∃ r, Scheme.trueValueAddLoop fuel m q = some r := by
  induction fuel generalizing m with
  | zero =>
    have hm : ¬ (2 * m < -q) := by omega
    exact ⟨m, by simp [Scheme.trueValueAddLoop, hm]⟩
  | succ fuel ih =>
    by_cases hm : 2 * m < -q
    · obtain ⟨r, hr⟩ := ih (m + q) (by omega)
      exact ⟨r, by simp [Scheme.trueValueAddLoop, hm, hr]⟩
    · exact ⟨m, by simp [Scheme.trueValueAddLoop, hm]⟩

/-- What `trueValue(m, q)` leaves, when it ends, for `q > 0`: a value congruent
to `m` in the closed range `[-q/2, q/2]`, which is `m` itself when `m` is in
that range. -/
theorem trueValue_sound (q : Int) (hq : 0 < q) (fuel : Nat) (m r : Int)
    (h : Scheme.trueValue fuel m q = some r) :
    r ≡ m [ZMOD q] ∧ -q ≤ 2 * r ∧ 2 * r ≤ q ∧ (-q ≤ 2 * m → 2 * m ≤ q → r = m) := by
  unfold Scheme.trueValue at h
  cases h1 : Scheme.trueValueSubLoop fuel m q with
  | none => rw [h1] at h; simp at h
  | some r1 =>
    rw [h1] at h
    simp only [Option.some_bind] at h
    obtain ⟨hc1, hle1, hsame1, hgt1⟩ := trueValueSubLoop_sound q hq fuel m r1 h1
    obtain ⟨hc2, hge2, hsame2, hlt2⟩ := trueValueAddLoop_sound q hq fuel r1 r h
    refine ⟨hc2.trans hc1, hge2, ?_, ?_⟩
    · by_cases h' : -q ≤ 2 * r1
      · rw [hsame2 h']
        exact hle1
      · have := hlt2 (by omega)
        omega
    · intro ha hb
      have : r1 = m := hsame1 hb
      rw [hsame2 (by omega), this]

/-- With `|m|` iterations allowed, `trueValue(m, q)` ends for `q > 0`. -/
theorem trueValue_ends (q : Int) (hq : 0 < q) (fuel : Nat) (m : Int)
    (hfuel : m.natAbs ≤ fuel) : ∃ r, Scheme.trueValue fuel m q = some r := by
  obtain ⟨r1, h1⟩ := trueValueSubLoop_ends q hq fuel m (by omega)
  obtain ⟨hc1, hle1, hsame1, hgt1⟩ := trueValueSubLoop_sound q hq fuel m r1 h1
  have hfuel2 : (-r1).toNat ≤ fuel := by
    by_cases h : 2 * m ≤ q
    · rw [hsame1 h]
      omega
    · have := hgt1 (by omega)
      omega
  obtain ⟨r2, h2⟩ := trueValueAddLoop_ends q hq fuel r1 hfuel2
  exact ⟨r2, by simp [Scheme.trueValue, h1, h2]⟩

/-- The `CZZ` overload runs `trueValue` on each component. -/
theorem trueValueCZZ_eq (fuel : Nat) (z : CZZ) (q r i : Int)
    (hr : Scheme.trueValue fuel z.r q = some r) (hi : Scheme.trueValue fuel z.i q = some i) :
    Scheme.trueValueCZZ fuel z q = some ⟨r, i⟩ := by
  unfold Scheme.trueValue at hr hi
  unfold Scheme.trueValueCZZ
  cases hs : Scheme.trueValueSubLoop fuel z.r q with
  | none => rw [hs] at hr; simp at hr
  | some a =>
    rw [hs] at hr
    simp only [Option.some_bind] at hr ⊢
    rw [hr]
    simp only [Option.some_bind]
    cases hs' : Scheme.trueValueSubLoop fuel z.i q with
    | none => rw [hs'] at hi; simp at hi
    | some b =>
      rw [hs'] at hi
      simp only [Option.some_bind] at hi ⊢
      rw [hi]
      simp only [Option.some_bind]

/-- Two integers of `[-q/2, q/2]` that are congruent modulo `q` are equal or
are the two ends `q/2` and `-q/2`. -/
theorem centred_congruent (q : Int) (hq : 0 < q) (r s : Int) (h : r ≡ s [ZMOD q])
    (hr : -q ≤ 2 * r ∧ 2 * r ≤ q) (hs : -q ≤ 2 * s ∧ 2 * s ≤ q) :
    r = s ∨ (2 * r = q ∧ 2 * s = -q) ∨ (2 * r = -q ∧ 2 * s = q) := by
  obtain ⟨k, hk⟩ := (Int.modEq_iff_dvd.mp h)
  have hk1 : -1 ≤ k ∧ k ≤ 1 := by
    constructor
    · by_contra hc
      have : k ≤ -2 := by omega
      have : q * k ≤ q * (-2) := Int.mul_le_mul_of_nonneg_left this (by omega)
      omega
    · by_contra hc
      have : 2 ≤ k := by omega
      have : q * 2 ≤ q * k := Int.mul_le_mul_of_nonneg_left this (by omega)
      omega
  have hk2 : k = -1 ∨ k = 0 ∨ k = 1 := by omega
  rcases hk2 with hk2 | hk2 | hk2
  · rw [hk2] at hk
    right; left
    omega
  · rw [hk2] at hk
    left
    omega
  · rw [hk2] at hk
    right; right
    omega

/-- C11 (as stated, refuted): with `q = 4`, `trueValue` leaves `-2` as it is,
outside `(-q/2, q/2]`, and leaves the congruent input `2` as it is:
two inputs congruent modulo `q` with different values. -/
theorem trueValue_counterexample :
    Scheme.trueValue 2 (-2) 4 = some (-2)
    ∧ ¬ (-(4 : Int) < 2 * -2)
    ∧ Scheme.trueValue 2 2 4 = some 2
    ∧ (-2 : Int) ≡ 2 [ZMOD 4]
    ∧ Scheme.trueValue 2 (-2) 4 ≠ Scheme.trueValue 2 2 4
    ∧ Scheme.trueValueCZZ 2 ⟨-2, 2⟩ 4 = some ⟨-2, 2⟩ := by
  decide

/-- C11 (amended): for every integer `m` (and each component of every `CZZ`)
and every modulus `q > 0`, `trueValue(m, q)` ends (as soon as `|m|` iterations
are allowed) and leaves a value `r` with `r ≡ m (mod q)` and `-q/2 ≤ r ≤ q/2`;
two inputs congruent modulo `q` are mapped to the same value, except that
inputs congruent to `q/2` are mapped to `q/2` or to `-q/2`. -/
theorem trueValue_centred (q : Int) (hq : 0 < q) (m : Int) :
    (∀ fuel : Nat, m.natAbs ≤ fuel →
      ∃ r, Scheme.trueValue fuel m q = some r ∧ r ≡ m [ZMOD q] ∧ -q ≤ 2 * r ∧ 2 * r ≤ q)
    ∧ (∀ (z : CZZ) (fuel : Nat), z.r.natAbs ≤ fuel → z.i.natAbs ≤ fuel →
      ∃ w, Scheme.trueValueCZZ fuel z q = some w
        ∧ Scheme.trueValue fuel z.r q = some w.r ∧ Scheme.trueValue fuel z.i q = some w.i
        ∧ (w.r ≡ z.r [ZMOD q] ∧ -q ≤ 2 * w.r ∧ 2 * w.r ≤ q)
        ∧ (w.i ≡ z.i [ZMOD q] ∧ -q ≤ 2 * w.i ∧ 2 * w.i ≤ q))
    ∧ (∀ (m' : Int) (fuel fuel' : Nat) (r r' : Int), m ≡ m' [ZMOD q] →
      Scheme.trueValue fuel m q = some r → Scheme.trueValue fuel' m' q = some r' →
      r = r' ∨ (2 * r = q ∧ 2 * r' = -q) ∨ (2 * r = -q ∧ 2 * r' = q)) := by
  refine ⟨?_, ?_, ?_⟩
  · intro fuel hfuel
    obtain ⟨r, h⟩ := trueValue_ends q hq fuel m hfuel
    obtain ⟨hc, h1, h2, _⟩ := trueValue_sound q hq fuel m r h
    exact ⟨r, h, hc, h1, h2⟩
  · intro z fuel hr hi
    obtain ⟨r, h⟩ := trueValue_ends q hq fuel z.r hr
    obtain ⟨hc, h1, h2, _⟩ := trueValue_sound q hq fuel z.r r h
    obtain ⟨i, h'⟩ := trueValue_ends q hq fuel z.i hi
    obtain ⟨hc', h1', h2', _⟩ := trueValue_sound q hq fuel z.i i h'
    exact ⟨⟨r, i⟩, trueValueCZZ_eq fuel z q r i h h', h, h', ⟨hc, h1, h2⟩, ⟨hc', h1', h2'⟩⟩
  · intro m' fuel fuel' r r' hmm h h'
    obtain ⟨hc, h1, h2, _⟩ := trueValue_sound q hq fuel m r h
    obtain ⟨hc', h1', h2', _⟩ := trueValue_sound q hq fuel' m' r' h'
    exact centred_congruent q hq r r' ((hc.trans hmm).trans hc'.symm) ⟨h1, h2⟩ ⟨h1', h2'⟩

/-- Centring `7` and `-9` modulo `8`: the loops end and leave `-1`. -/
theorem trueValue_centred_witness :
    (0 < (8 : Int))
    ∧ Scheme.trueValue 7 7 8 = some (-1)
    ∧ Scheme.trueValue 9 (-9) 8 = some (-1)
    ∧ (∃ r, Scheme.trueValue 7 7 8 = some r ∧ r ≡ 7 [ZMOD 8] ∧ -8 ≤ 2 * r ∧ 2 * r ≤ 8) :=
  ⟨by decide, by decide, by decide, (trueValue_centred 8 (by decide) 7).1 7 (by decide)⟩

/-! ## Slot grouping -/

/-- A loop of two writes per counter leaves alone every index it never writes. -/
theorem foldl_update2_frame (k1 k2 : Nat → Int) (v1 v2 : Nat → CZZ) (l : List Nat)
    (init : Int → CZZ) (x : Int) (hx : ∀ i ∈ l, x ≠ k1 i ∧ x ≠ k2 i) :
    l.foldl (fun (res : Int → CZZ) (i : Nat) =>
        Function.update (Function.update res (k1 i) (v1 i)) (k2 i) (v2 i)) init x
      = init x := by
  induction l generalizing init with
  | nil => rfl
  | cons a t ih =>
    rw [List.foldl_cons, ih _ (fun i hi => hx i (List.mem_cons_of_mem a hi))]
    have ha := hx a (List.mem_cons_self a t)
    rw [Function.update_noteq ha.2, Function.update_noteq ha.1]

/-- A loop of two writes per counter, at indices that are pairwise distinct,
leaves at each written index the value written there. -/
theorem foldl_update2_hit (k1 k2 : Nat → Int) (v1 v2 : Nat → CZZ) (l : List Nat)
    (init : Int → CZZ)
    (hinj : ∀ i ∈ l, ∀ j ∈ l, (k1 i = k1 j → i = j) ∧ (k2 i = k2 j → i = j) ∧ k1 i ≠ k2 j)
    (i : Nat) (hi : i ∈ l) :
    l.foldl (fun (res : Int → CZZ) (i : Nat) =>
        Function.update (Function.update res (k1 i) (v1 i)) (k2 i) (v2 i)) init (k1 i) = v1 i
    ∧ l.foldl (fun (res : Int → CZZ) (i : Nat) =>
        Function.update (Function.update res (k1 i) (v1 i)) (k2 i) (v2 i)) init (k2 i) = v2 i := by
  induction l generalizing init with
  | nil => exact absurd hi (List.not_mem_nil i)
  | cons a t ih =>
    rw [List.foldl_cons]
    have hinjt : ∀ i ∈ t, ∀ j ∈ t,
        (k1 i = k1 j → i = j) ∧ (k2 i = k2 j → i = j) ∧ k1 i ≠ k2 j :=
      fun i hi j hj => hinj i (List.mem_cons_of_mem a hi) j (List.mem_cons_of_mem a hj)
    by_cases hit : i ∈ t
    · exact ih _ hinjt hit
    · have hia : i = a := by
        rcases List.mem_cons.mp hi with h | h
        · exact h
        · exact absurd h hit
      subst hia
      have hself := hinj i (List.mem_cons_self i t) i (List.mem_cons_self i t)
      have h1 : ∀ j ∈ t, k1 i ≠ k1 j ∧ k1 i ≠ k2 j := by
        intro j hj
        have h := hinj i (List.mem_cons_self i t) j (List.mem_cons_of_mem i hj)
        exact ⟨fun e => hit (h.1 e ▸ hj), h.2.2⟩
      have h2 : ∀ j ∈ t, k2 i ≠ k1 j ∧ k2 i ≠ k2 j := by
        intro j hj
        have h := hinj i (List.mem_cons_self i t) j (List.mem_cons_of_mem i hj)
        have h' := hinj j (List.mem_cons_of_mem i hj) i (List.mem_cons_self i t)
        exact ⟨fun e => h'.2.2 e.symm, fun e => hit (h.2.1 e ▸ hj)⟩
      rw [foldl_update2_frame k1 k2 v1 v2 t _ _ h1, foldl_update2_frame k1 k2 v1 v2 t _ _ h2]
      constructor
      · rw [Function.update_noteq hself.2.2, Function.update_same]
      · rw [Function.update_same]

/-- A loop that writes entry `i` at counter `i` leaves alone the entries whose
counter it never takes. -/
theorem foldl_update_frame (v : Nat → CZZ) (l : List Nat) (init : Int → CZZ) (x : Int)
    (hx : ∀ i ∈ l, x ≠ (i : Int)) :
    l.foldl (fun (res : Int → CZZ) (i : Nat) => Function.update res (i : Int) (v i)) init x
      = init x := by
  induction l generalizing init with
  | nil => rfl
  | cons a t ih =>
    rw [List.foldl_cons, ih _ (fun i hi => hx i (List.mem_cons_of_mem a hi))]
    exact Function.update_noteq (hx a (List.mem_cons_self a t)) _ _

/-- A loop that writes entry `i` at counter `i` leaves there what it wrote. -/
theorem foldl_update_hit (v : Nat → CZZ) (l : List Nat) (init : Int → CZZ) (i : Nat)
    (hi : i ∈ l) :
    l.foldl (fun (res : Int → CZZ) (i : Nat) => Function.update res (i : Int) (v i)) init
      (i : Int) = v i := by
  induction l generalizing init with
  | nil => exact absurd hi (List.not_mem_nil i)
  | cons a t ih =>
    rw [List.foldl_cons]
    by_cases hit : i ∈ t
    · exact ih _ hit
    · have hia : i = a := by
        rcases List.mem_cons.mp hi with h | h
        · exact h
        · exact absurd h hit
      subst hia
      rw [foldl_update_frame v t _ _ (fun j hj e => hit (by
        have : i = j := by exact_mod_cast e
        rw [this]
        exact hj))]
      exact Function.update_same _ _ _

/-- C12: for a power-of-two slot count `ℓ` and a vector `vals`, when the `2ℓ`
positions `(rotGroup[log2 ℓ][i] − 1)/2` and `(rotGroupInv[log2 ℓ][i] − 1)/2`,
`i` in `[0, ℓ)`, are pairwise distinct indices in `[0, 2ℓ)`,
`degroupidx(groupidx(vals, ℓ), ℓ)` is `vals`, and `g = groupidx(vals, ℓ)` has
`g[(rotGroupInv[i] − 1)/2] = conj(g[(rotGroup[i] − 1)/2])` for every `i`; for a
single value, `groupidx(val) = [val, conj(val)]`. -/
theorem degroupidx_groupidx (params : Params) (vals : Int → CZZ) (slots : Int)
    (hpow : ∃ k : Nat, slots = 2 ^ k)
    (hdistinct : ∀ i : Nat, i < slots.toNat → ∀ j : Nat, j < slots.toNat →
      (Int.tdiv (params.rotGroup (log2 slots) (i : Int) - 1) 2
          = Int.tdiv (params.rotGroup (log2 slots) (j : Int) - 1) 2 → i = j)
      ∧ (Int.tdiv (params.rotGroupInv (log2 slots) (i : Int) - 1) 2
          = Int.tdiv (params.rotGroupInv (log2 slots) (j : Int) - 1) 2 → i = j)
      ∧ Int.tdiv (params.rotGroup (log2 slots) (i : Int) - 1) 2
          ≠ Int.tdiv (params.rotGroupInv (log2 slots) (j : Int) - 1) 2)
    (hrange : ∀ i : Nat, i < slots.toNat →
      (0 ≤ Int.tdiv (params.rotGroup (log2 slots) (i : Int) - 1) 2
        ∧ Int.tdiv (params.rotGroup (log2 slots) (i : Int) - 1) 2 < 2 * slots)
      ∧ (0 ≤ Int.tdiv (params.rotGroupInv (log2 slots) (i : Int) - 1) 2
        ∧ Int.tdiv (params.rotGroupInv (log2 slots) (i : Int) - 1) 2 < 2 * slots)) :
    (∀ i : Nat, i < slots.toNat →
      Scheme.degroupidx params (Scheme.groupidx params vals slots) slots (i : Int)
        = vals (i : Int))
    ∧ (∀ i : Nat, i < slots.toNat →
      Scheme.groupidx params vals slots
          (Int.tdiv (params.rotGroupInv (log2 slots) (i : Int) - 1) 2)
        = (Scheme.groupidx params vals slots
            (Int.tdiv (params.rotGroup (log2 slots) (i : Int) - 1) 2)).conjugate)
    ∧ (∀ val : CZZ, Scheme.groupidxSingle val 0 = val
        ∧ Scheme.groupidxSingle val 1 = val.conjugate) := by
  have hg : ∀ i : Nat, i < slots.toNat →
      Scheme.groupidx params vals slots
          (Int.tdiv (params.rotGroup (log2 slots) (i : Int) - 1) 2) = vals (i : Int)
      ∧ Scheme.groupidx params vals slots
          (Int.tdiv (params.rotGroupInv (log2 slots) (i : Int) - 1) 2)
        = (vals (i : Int)).conjugate := by
    intro i hi
    exact foldl_update2_hit
      (fun i => Int.tdiv (params.rotGroup (log2 slots) (i : Int) - 1) 2)
      (fun i => Int.tdiv (params.rotGroupInv (log2 slots) (i : Int) - 1) 2)
      (fun i => vals (i : Int)) (fun i => (vals (i : Int)).conjugate)
      (List.range slots.toNat) _
      (fun i hi j hj => hdistinct i (List.mem_range.mp hi) j (List.mem_range.mp hj))
      i (List.mem_range.mpr hi)
  refine ⟨?_, ?_, ?_⟩
  · intro i hi
    have h := foldl_update_hit
      (fun i => Scheme.groupidx params vals slots
        (Int.tdiv (params.rotGroup (log2 slots) (i : Int) - 1) 2))
      (List.range slots.toNat) (fun _ => ⟨0, 0⟩) i (List.mem_range.mpr hi)
    exact h.trans (hg i hi).1
  · intro i hi
    rw [(hg i hi).1, (hg i hi).2]
  · intro val
    constructor
    · show Function.update (Function.update (fun _ => (⟨0, 0⟩ : CZZ)) 0 val) 1 val.conjugate 0
        = val
      rw [Function.update_noteq (by decide), Function.update_same]
    · show Function.update (Function.update (fun _ => (⟨0, 0⟩ : CZZ)) 0 val) 1 val.conjugate 1
        = val.conjugate
      rw [Function.update_same]

/-- Two slots under `exParams`: positions `0, 2` for the values and `1, 3` for
their conjugates. -/
theorem degroupidx_groupidx_witness :
    (∃ k : Nat, (2 : Int) = 2 ^ k)
    ∧ (List.range 4).map (fun i => Scheme.groupidx exParams
        (fun i => if i = 0 then ⟨1, 2⟩ else ⟨3, -1⟩) 2 (i : Int))
      = [⟨1, 2⟩, ⟨1, -2⟩, ⟨3, -1⟩, ⟨3, 1⟩]
    ∧ (∀ i : Nat, i < (2 : Int).toNat →
      Scheme.degroupidx exParams (Scheme.groupidx exParams
          (fun i => if i = 0 then ⟨1, 2⟩ else ⟨3, -1⟩) 2) 2 (i : Int)
        = (fun i => if i = 0 then (⟨1, 2⟩ : CZZ) else ⟨3, -1⟩) (i : Int)) :=
  ⟨⟨1, by decide⟩, by decide,
    (degroupidx_groupidx exParams (fun i => if i = 0 then ⟨1, 2⟩ else ⟨3, -1⟩) 2
      ⟨1, by decide⟩ (by decide) (by decide)).1⟩

/-! ## Conjugation -/

/-- Reducing `X^n` and then raising to an odd power `t` is the same as
reducing `X^(n t)`. -/
theorem negaWeight_pow (t : Int) (ht : t % 2 = 1) (n : Int) (k : Fin N) :
    ∑ m : Fin N, negaWeight N n m * negaWeight N ((m.val : Int) * t) k
      = negaWeight N (n * t) k := by
  have hN : 0 < N := Nat.lt_of_le_of_lt (Nat.zero_le _) k.isLt
  have hNz : (N : Int) ≠ 0 := by omega
  have hNpos : (0 : Int) < N := by omega
  have hlo : 0 ≤ n % (N : Int) := Int.emod_nonneg _ hNz
  have hhi : n % (N : Int) < N := Int.emod_lt_of_pos _ hNpos
  let m0 : Fin N := ⟨(n % (N : Int)).toNat, by omega⟩
  have hm0 : ((m0.val : Nat) : Int) = n % (N : Int) := by
    show (((n % (N : Int)).toNat : Nat) : Int) = n % (N : Int)
    omega
  rw [Finset.sum_eq_single m0]
  · have hn : n * t = (m0.val : Int) * t + (N : Int) * (n / (N : Int) * t) := by
      have h := Int.emod_add_ediv n (N : Int)
      rw [hm0]
      calc n * t = (n % (N : Int) + (N : Int) * (n / (N : Int))) * t := by rw [h]
        _ = n % (N : Int) * t + (N : Int) * (n / (N : Int) * t) := by ring
    have hmod : (n * t) % (N : Int) = ((m0.val : Int) * t) % (N : Int) := by
      rw [hn, Int.add_mul_emod_self_left]
    have hdiv : (n * t) / (N : Int)
        = ((m0.val : Int) * t) / (N : Int) + n / (N : Int) * t := by
      rw [hn, Int.add_mul_ediv_left _ _ hNz]
    have hpar : (n / (N : Int) * t) % 2 = (n / (N : Int)) % 2 := by
      rw [Int.mul_emod, ht, mul_one, Int.emod_emod_of_dvd _ (dvd_refl 2)]
    have hsign : (if (n / (N : Int)) % 2 = 0 then (1 : Int) else -1)
        = if (n / (N : Int) * t) % 2 = 0 then 1 else -1 := by rw [hpar]
    unfold negaWeight
    rw [hmod, hdiv, if_pos hm0.symm]
    by_cases hk : ((m0.val : Int) * t) % (N : Int) = (k.val : Int)
    · rw [if_pos hk, if_pos hk, hsign, sign_parity_add, add_comm]
    · rw [if_neg hk, if_neg hk, mul_zero]
  · intro m _ hm
    unfold negaWeight
    have : ¬ (n % (N : Int) = (m.val : Int)) := by
      intro h
      apply hm
      apply Fin.ext
      show m.val = (n % (N : Int)).toNat
      omega
    rw [if_neg this, zero_mul]
  · intro h
    exact absurd (Finset.mem_univ m0) h

theorem conjugate_coeff (x : Poly N) (k : Fin N) :
    (Ring2Utils.conjugate x).coeff k
      = ∑ i : Fin N, negaWeight N ((i.val : Int) * ((N : Int) - 1)) k * x.coeff i := rfl

theorem conjugate_add (x y : Poly N) :
    Ring2Utils.conjugate (x + y) = Ring2Utils.conjugate x + Ring2Utils.conjugate y := by
  ext k
  simp only [conjugate_coeff, Poly.coeff_add, mul_add, Finset.sum_add_distrib]

/-- The map `X ↦ X^(N-1)` keeps congruences modulo `q`. -/
theorem conjugate_modEq (q : Int) (x y : Poly N) (h : PolyModEq q x y) :
    PolyModEq q (Ring2Utils.conjugate x) (Ring2Utils.conjugate y) := by
  intro k
  rw [conjugate_coeff, conjugate_coeff]
  unfold Int.ModEq
  rw [Finset.sum_int_mod, Finset.sum_int_mod Finset.univ q (fun i =>
    negaWeight N ((i.val : Int) * ((N : Int) - 1)) k * y.coeff i)]
  congr 1
  refine Finset.sum_congr rfl fun i _ => ?_
  exact Int.ModEq.mul_left _ (h i)

/-- Coefficients of `σ(x) * z`, for `σ` the map `X ↦ X^(N-1)` with `N` even. -/
theorem conjugate_mul_coeff (hN : N % 2 = 0) (x z : Poly N) (k : Fin N) :
    (Ring2Utils.conjugate x * z).coeff k
      = ∑ i : Fin N, ∑ l : Fin N,
          negaWeight N ((i.val : Int) * ((N : Int) - 1) + (l.val : Int)) k
            * (x.coeff i * z.coeff l) := by
  rw [Poly.coeff_mul]
  simp only [conjugate_coeff, Finset.sum_mul, Finset.mul_sum]
  -- ∑ m, ∑ l, ∑ i  →  ∑ i, ∑ l, ∑ m
  rw [Finset.sum_comm]
  rw [Finset.sum_congr rfl fun l _ => Finset.sum_comm]
  rw [Finset.sum_comm]
  refine Finset.sum_congr rfl fun i _ => ?_
  refine Finset.sum_congr rfl fun l _ => ?_
  rw [← negaWeight_comp ((i.val : Int) * ((N : Int) - 1)) (l.val : Int) k, Finset.sum_mul]
  refine Finset.sum_congr rfl fun m _ => ?_
  ring

/-- The map `X ↦ X^(N-1)` is multiplicative when `N` is even. -/
theorem conjugate_mul (hN : N % 2 = 0) (x y : Poly N) :
    Ring2Utils.conjugate (x * y) = Ring2Utils.conjugate x * Ring2Utils.conjugate y := by
  have ht : ((N : Int) - 1) % 2 = 1 := by omega
  ext k
  rw [conjugate_mul_coeff hN, conjugate_coeff]
  simp only [Poly.coeff_mul, conjugate_coeff, Finset.sum_mul, Finset.mul_sum]
  -- left: ∑ m, ∑ i, ∑ j  →  ∑ i, ∑ j, ∑ m ; right: ∑ i, ∑ l, ∑ j  →  ∑ i, ∑ j, ∑ l
  rw [Finset.sum_comm]
  rw [Finset.sum_congr rfl fun i _ => Finset.sum_comm]
  refine Finset.sum_congr rfl fun i _ => ?_
  rw [Finset.sum_comm (s := Finset.univ) (t := Finset.univ)
    (f := fun l j => negaWeight N ((i.val : Int) * ((N : Int) - 1) + (l.val : Int)) k
      * (x.coeff i * (negaWeight N ((j.val : Int) * ((N : Int) - 1)) l * y.coeff j)))]
  refine Finset.sum_congr rfl fun j _ => ?_
  have hl := negaWeight_pow ((N : Int) - 1) ht ((i.val : Int) + (j.val : Int)) k
  have hr := negaWeight_comp ((j.val : Int) * ((N : Int) - 1))
    ((i.val : Int) * ((N : Int) - 1)) k
  have e : ((i.val : Int) + (j.val : Int)) * ((N : Int) - 1)
      = (j.val : Int) * ((N : Int) - 1) + (i.val : Int) * ((N : Int) - 1) := by ring
  calc ∑ m : Fin N, negaWeight N ((m.val : Int) * ((N : Int) - 1)) k
          * (negaWeight N ((i.val : Int) + (j.val : Int)) m * (x.coeff i * y.coeff j))
      = (∑ m : Fin N, negaWeight N ((i.val : Int) + (j.val : Int)) m
          * negaWeight N ((m.val : Int) * ((N : Int) - 1)) k) * (x.coeff i * y.coeff j) := by
        rw [Finset.sum_mul]
        refine Finset.sum_congr rfl fun m _ => ?_
        ring
    _ = (∑ l : Fin N, negaWeight N ((j.val : Int) * ((N : Int) - 1)) l
          * negaWeight N ((l.val : Int) + (i.val : Int) * ((N : Int) - 1)) k)
          * (x.coeff i * y.coeff j) := by rw [hl, hr, e]
    _ = ∑ l : Fin N, negaWeight N ((i.val : Int) * ((N : Int) - 1) + (l.val : Int)) k
          * (x.coeff i * (negaWeight N ((j.val : Int) * ((N : Int) - 1)) l * y.coeff j)) := by
        rw [Finset.sum_mul]
        refine Finset.sum_congr rfl fun l _ => ?_
        rw [add_comm ((l.val : Int)) _]
        ring

theorem C_mul_coeff (c : Int) (x : Poly N) (k : Fin N) :
    (Poly.C c * x).coeff k = c * x.coeff k := by
  have hN : 0 < N := Nat.lt_of_le_of_lt (Nat.zero_le _) k.isLt
  rw [Poly.coeff_mul, Finset.sum_eq_single (⟨0, hN⟩ : Fin N)]
  · simp only [Poly.C, if_true, Nat.cast_zero, zero_add, negaWeight_small]
    simp
  · intro i _ hi
    have : i.val ≠ 0 := fun h => hi (Fin.ext h)
    simp [Poly.C, this]
  · intro h
    exact absurd (Finset.mem_univ _) h

/-- A polynomial is `2^b` times its right shift by `b` bits plus the bits dropped. -/
theorem rightShift_decompose (x : Poly N) (bits : Int) :
    x = Poly.C (2 ^ bits.toNat) * Ring2Utils.rightShift x bits + x.modq (2 ^ bits.toNat) := by
  ext i
  rw [Poly.coeff_add, C_mul_coeff]
  show x.coeff i = 2 ^ bits.toNat * (x.coeff i >>> bits.toNat) + x.coeff i % 2 ^ bits.toNat
  rw [Int.shiftRight_eq_div_pow, Nat.cast_pow, Nat.cast_ofNat]
  exact (Int.ediv_add_emod _ _).symm

/-- A multiple `P·x` that vanishes modulo `P·q` comes from an `x` that vanishes
modulo `q`. -/
theorem modEq_zero_of_C_mul (P q : Int) (hP : P ≠ 0) (x : Poly N)
    (h : PolyModEq (P * q) (Poly.C P * x) 0) : PolyModEq q x 0 := by
  intro i
  have hi := h i
  rw [C_mul_coeff, Poly.coeff_zero, Int.modEq_zero_iff_dvd] at hi
  rw [Poly.coeff_zero, Int.modEq_zero_iff_dvd]
  exact (mul_dvd_mul_iff_left hP).mp hi

/-- The decryption of `conjugate(c)` and the image under `σ` of the decryption
of `c`, modulo `q`, for `N` even. -/
theorem toQ_conjugate_decryptMsg (hN : N % 2 = 0) (params : Params) (publicKey : PubKey N)
    (secretKey : SecKey N) (cipher : Cipher N) :
    toQ (Scheme.getqi params cipher.level)
        (Scheme.decryptMsg params secretKey (Scheme.conjugate params publicKey cipher)).mx
      = toQ (Scheme.getqi params cipher.level)
          (Ring2Utils.rightShift (Ring2Utils.mult (Ring2Utils.conjugate cipher.ax)
            publicKey.axConj (Scheme.getPqi params cipher.level)) params.logP)
          * toQ (Scheme.getqi params cipher.level) secretKey.sx
        + (toQ (Scheme.getqi params cipher.level)
            (Ring2Utils.rightShift (Ring2Utils.mult (Ring2Utils.conjugate cipher.ax)
              publicKey.bxConj (Scheme.getPqi params cipher.level)) params.logP)
          + toQ (Scheme.getqi params cipher.level) (Ring2Utils.conjugate cipher.bx))
    ∧ toQ (Scheme.getqi params cipher.level)
        (Ring2Utils.conjugate (Scheme.decryptMsg params secretKey cipher).mx)
      = toQ (Scheme.getqi params cipher.level) (Ring2Utils.conjugate cipher.ax)
          * toQ (Scheme.getqi params cipher.level) (Ring2Utils.conjugate secretKey.sx)
        + toQ (Scheme.getqi params cipher.level) (Ring2Utils.conjugate cipher.bx) := by
  constructor
  · have h := toQ_decryptMsg params secretKey (Scheme.conjugate params publicKey cipher)
    have hl : (Scheme.conjugate params publicKey cipher).level = cipher.level := rfl
    rw [hl] at h
    rw [h]
    simp only [Scheme.conjugate, Ring2Utils.addAndEqual, Ring2Utils.rightShiftAndEqual,
      Ring2Utils.multAndEqual, Ring2Utils.mult, Ring2Utils.rightShift, toQ_modq, toQ_add]
  · have h : PolyModEq (Scheme.getqi params cipher.level)
        (Scheme.decryptMsg params secretKey cipher).mx
        (cipher.ax * secretKey.sx + cipher.bx) := by
      rw [polyModEq_iff, toQ_decryptMsg, toQ_add, toQ_mul]
    have h' := (polyModEq_iff _ _ _).mp (conjugate_modEq _ _ _ h)
    rw [h', conjugate_add, conjugate_mul hN, toQ_add, toQ_mul]

/-- C16 (as stated, refuted): with an exact conjugation key
(`bxConj + axConj·s ≡ P·σ(s)` modulo `P·q`, `P = 8`, `q = 256`), the decryption
of `conjugate(c)` is `122 + X + 218 X^2 + 12 X^3` while `σ` of the decryption of
`c` is, modulo `q`, `123 + 2 X + 219 X^2 + 12 X^3`. -/
theorem conjugate_counterexample :
    PolyModEq (Scheme.getPqi exParams exCipher1.level)
      (exPubKeyConj.bxConj + exPubKeyConj.axConj * exSecKey.sx)
      (Poly.C (2 ^ exParams.logP.toNat) * Ring2Utils.conjugate exSecKey.sx)
    ∧ Scheme.getqi exParams exCipher1.level = 256
    ∧ Scheme.getPqi exParams exCipher1.level = 8 * 256
    ∧ (Scheme.decryptMsg exParams exSecKey
        (Scheme.conjugate exParams exPubKeyConj exCipher1)).mx = ⟨![122, 1, 218, 12]⟩
    ∧ (Ring2Utils.conjugate (Scheme.decryptMsg exParams exSecKey exCipher1).mx).modq 256
        = ⟨![123, 2, 219, 12]⟩
    ∧ ¬ PolyModEq (Scheme.getqi exParams exCipher1.level)
        (Scheme.decryptMsg exParams exSecKey
          (Scheme.conjugate exParams exPubKeyConj exCipher1)).mx
        (Ring2Utils.conjugate (Scheme.decryptMsg exParams exSecKey exCipher1).mx) := by
  decide

/-- C16 (amended): `conjugate(c)` returns
`(rshift(σ(a)·axConj mod P·q, logP), (rshift(σ(a)·bxConj mod P·q, logP) + σ(b)) mod q)`
with `σ` the map `X ↦ X^(N−1)`; for `N` even its decryption is congruent modulo
`q` to `σ` of the decryption of `c` plus
`E = rshift(σ(a)·axConj mod P·q, logP)·s + rshift(σ(a)·bxConj mod P·q, logP) − σ(a)·σ(s)`;
when the conjugation key is exact, `P·E ≡ −(r_a·s + r_b)` modulo `P·q`, with
`r_a`, `r_b` the low `logP` bits that the two right shifts drop, and decryption
commutes with conjugation when `r_a·s + r_b ≡ 0` modulo `P·q`. -/
theorem conjugate_decryptMsg (params : Params) (publicKey : PubKey N) (secretKey : SecKey N)
    (cipher : Cipher N) (hN : N % 2 = 0)
    (hPq : Scheme.getPqi params cipher.level
      = 2 ^ params.logP.toNat * Scheme.getqi params cipher.level) :
    (Scheme.conjugate params publicKey cipher).ax
      = Ring2Utils.rightShift (Ring2Utils.mult (Ring2Utils.conjugate cipher.ax)
          publicKey.axConj (Scheme.getPqi params cipher.level)) params.logP
    ∧ (Scheme.conjugate params publicKey cipher).bx
      = (Ring2Utils.rightShift (Ring2Utils.mult (Ring2Utils.conjugate cipher.ax)
            publicKey.bxConj (Scheme.getPqi params cipher.level)) params.logP
          + Ring2Utils.conjugate cipher.bx).modq (Scheme.getqi params cipher.level)
    ∧ PolyModEq (Scheme.getqi params cipher.level)
        (Scheme.decryptMsg params secretKey (Scheme.conjugate params publicKey cipher)).mx
        (Ring2Utils.conjugate (Scheme.decryptMsg params secretKey cipher).mx
          + (Ring2Utils.rightShift (Ring2Utils.mult (Ring2Utils.conjugate cipher.ax)
                publicKey.axConj (Scheme.getPqi params cipher.level)) params.logP
              * secretKey.sx
            + Ring2Utils.rightShift (Ring2Utils.mult (Ring2Utils.conjugate cipher.ax)
                publicKey.bxConj (Scheme.getPqi params cipher.level)) params.logP
            - Ring2Utils.conjugate cipher.ax * Ring2Utils.conjugate secretKey.sx))
    ∧ (PolyModEq (Scheme.getPqi params cipher.level)
          (publicKey.bxConj + publicKey.axConj * secretKey.sx)
          (Poly.C (2 ^ params.logP.toNat) * Ring2Utils.conjugate secretKey.sx) →
        PolyModEq (Scheme.getPqi params cipher.level)
          (Poly.C (2 ^ params.logP.toNat)
            * (Ring2Utils.rightShift (Ring2Utils.mult (Ring2Utils.conjugate cipher.ax)
                  publicKey.axConj (Scheme.getPqi params cipher.level)) params.logP
                * secretKey.sx
              + Ring2Utils.rightShift (Ring2Utils.mult (Ring2Utils.conjugate cipher.ax)
                  publicKey.bxConj (Scheme.getPqi params cipher.level)) params.logP
              - Ring2Utils.conjugate cipher.ax * Ring2Utils.conjugate secretKey.sx))
          (-((Ring2Utils.mult (Ring2Utils.conjugate cipher.ax) publicKey.axConj
                (Scheme.getPqi params cipher.level)).modq (2 ^ params.logP.toNat)
              * secretKey.sx
            + (Ring2Utils.mult (Ring2Utils.conjugate cipher.ax) publicKey.bxConj
                (Scheme.getPqi params cipher.level)).modq (2 ^ params.logP.toNat)))
        ∧ (PolyModEq (Scheme.getPqi params cipher.level)
            ((Ring2Utils.mult (Ring2Utils.conjugate cipher.ax) publicKey.axConj
                (Scheme.getPqi params cipher.level)).modq (2 ^ params.logP.toNat)
              * secretKey.sx
            + (Ring2Utils.mult (Ring2Utils.conjugate cipher.ax) publicKey.bxConj
                (Scheme.getPqi params cipher.level)).modq (2 ^ params.logP.toNat)) 0 →
          PolyModEq (Scheme.getqi params cipher.level)
            (Scheme.decryptMsg params secretKey
              (Scheme.conjugate params publicKey cipher)).mx
            (Ring2Utils.conjugate (Scheme.decryptMsg params secretKey cipher).mx))) := by
  obtain ⟨hdec, hsig⟩ := toQ_conjugate_decryptMsg hN params publicKey secretKey cipher
  have h3 : PolyModEq (Scheme.getqi params cipher.level)
      (Scheme.decryptMsg params secretKey (Scheme.conjugate params publicKey cipher)).mx
      (Ring2Utils.conjugate (Scheme.decryptMsg params secretKey cipher).mx
        + (Ring2Utils.rightShift (Ring2Utils.mult (Ring2Utils.conjugate cipher.ax)
              publicKey.axConj (Scheme.getPqi params cipher.level)) params.logP
            * secretKey.sx
          + Ring2Utils.rightShift (Ring2Utils.mult (Ring2Utils.conjugate cipher.ax)
              publicKey.bxConj (Scheme.getPqi params cipher.level)) params.logP
          - Ring2Utils.conjugate cipher.ax * Ring2Utils.conjugate secretKey.sx)) := by
    rw [polyModEq_iff, hdec, toQ_add, hsig, toQ_sub, toQ_add, toQ_mul, toQ_mul]
    ring
  refine ⟨rfl, rfl, h3, ?_⟩
  intro hkey
  have hu := congrArg (toQ (Scheme.getPqi params cipher.level))
    (rightShift_decompose (Ring2Utils.mult (Ring2Utils.conjugate cipher.ax)
      publicKey.axConj (Scheme.getPqi params cipher.level)) params.logP)
  have hv := congrArg (toQ (Scheme.getPqi params cipher.level))
    (rightShift_decompose (Ring2Utils.mult (Ring2Utils.conjugate cipher.ax)
      publicKey.bxConj (Scheme.getPqi params cipher.level)) params.logP)
  have hu0 : toQ (Scheme.getPqi params cipher.level)
      (Ring2Utils.mult (Ring2Utils.conjugate cipher.ax) publicKey.axConj
        (Scheme.getPqi params cipher.level))
      = toQ (Scheme.getPqi params cipher.level) (Ring2Utils.conjugate cipher.ax)
        * toQ (Scheme.getPqi params cipher.level) publicKey.axConj := by
    simp only [Ring2Utils.mult, toQ_modq, toQ_mul]
  have hv0 : toQ (Scheme.getPqi params cipher.level)
      (Ring2Utils.mult (Ring2Utils.conjugate cipher.ax) publicKey.bxConj
        (Scheme.getPqi params cipher.level))
      = toQ (Scheme.getPqi params cipher.level) (Ring2Utils.conjugate cipher.ax)
        * toQ (Scheme.getPqi params cipher.level) publicKey.bxConj := by
    simp only [Ring2Utils.mult, toQ_modq, toQ_mul]
  rw [toQ_add, toQ_mul, hu0] at hu
  rw [toQ_add, toQ_mul, hv0] at hv
  have hk := (polyModEq_iff _ _ _).mp hkey
  rw [toQ_add, toQ_mul, toQ_mul] at hk
  have h4 : PolyModEq (Scheme.getPqi params cipher.level)
      (Poly.C (2 ^ params.logP.toNat)
        * (Ring2Utils.rightShift (Ring2Utils.mult (Ring2Utils.conjugate cipher.ax)
              publicKey.axConj (Scheme.getPqi params cipher.level)) params.logP
            * secretKey.sx
          + Ring2Utils.rightShift (Ring2Utils.mult (Ring2Utils.conjugate cipher.ax)
              publicKey.bxConj (Scheme.getPqi params cipher.level)) params.logP
          - Ring2Utils.conjugate cipher.ax * Ring2Utils.conjugate secretKey.sx))
      (-((Ring2Utils.mult (Ring2Utils.conjugate cipher.ax) publicKey.axConj
            (Scheme.getPqi params cipher.level)).modq (2 ^ params.logP.toNat)
          * secretKey.sx
        + (Ring2Utils.mult (Ring2Utils.conjugate cipher.ax) publicKey.bxConj
            (Scheme.getPqi params cipher.level)).modq (2 ^ params.logP.toNat))) := by
    rw [polyModEq_iff]
    simp only [toQ_mul, toQ_add, toQ_sub, toQ_neg]
    linear_combination
      (-(toQ (Scheme.getPqi params cipher.level) secretKey.sx)) * hu - hv
        + toQ (Scheme.getPqi params cipher.level) (Ring2Utils.conjugate cipher.ax) * hk
  refine ⟨h4, ?_⟩
  intro hzero
  have hP : (2 : Int) ^ params.logP.toNat ≠ 0 := pow_ne_zero _ (by decide)
  have hE : PolyModEq (Scheme.getPqi params cipher.level)
      (Poly.C (2 ^ params.logP.toNat)
        * (Ring2Utils.rightShift (Ring2Utils.mult (Ring2Utils.conjugate cipher.ax)
              publicKey.axConj (Scheme.getPqi params cipher.level)) params.logP
            * secretKey.sx
          + Ring2Utils.rightShift (Ring2Utils.mult (Ring2Utils.conjugate cipher.ax)
              publicKey.bxConj (Scheme.getPqi params cipher.level)) params.logP
          - Ring2Utils.conjugate cipher.ax * Ring2Utils.conjugate secretKey.sx)) 0 := by
    rw [polyModEq_iff] at h4 hzero ⊢
    rw [h4, toQ_neg, hzero]
    exact neg_zero
  have hE' := (polyModEq_iff _ _ _).mp
    (modEq_zero_of_C_mul (2 ^ params.logP.toNat) (Scheme.getqi params cipher.level) hP _
      (by rw [← hPq]; exact hE))
  have h3' := (polyModEq_iff _ _ _).mp h3
  rw [polyModEq_iff, h3', toQ_add, hE']
  exact add_zero _

/-- Conjugation of `exCipher1` under the exact key `exPubKeyConj`. -/
theorem conjugate_decryptMsg_witness :
    (4 % 2 = 0)
    ∧ Scheme.getPqi exParams exCipher1.level
        = 2 ^ exParams.logP.toNat * Scheme.getqi exParams exCipher1.level
    ∧ Scheme.conjugate exParams exPubKeyConj exCipher1
        = ⟨⟨![236, 11, 193, 148]⟩, ⟨![3, 84, 59, 55]⟩, 2, 1⟩
    ∧ (Scheme.conjugate exParams exPubKeyConj exCipher1).ax
      = Ring2Utils.rightShift (Ring2Utils.mult (Ring2Utils.conjugate exCipher1.ax)
          exPubKeyConj.axConj (Scheme.getPqi exParams exCipher1.level)) exParams.logP :=
  ⟨by decide, by decide, by decide,
    (conjugate_decryptMsg exParams exPubKeyConj exSecKey exCipher1 (by decide)
      (by decide)).1⟩

/-! ## Encoding and decoding -/

theorem log2Nat_two_pow (k fuel : Nat) (h : k ≤ fuel) : log2Nat fuel (2 ^ k) = k := by
  induction k generalizing fuel with
  | zero =>
    cases fuel with
    | zero => rfl
    | succ f => simp [log2Nat]
  | succ k ih =>
    cases fuel with
    | zero => omega
    | succ f =>
      have h2 : 2 ≤ 2 ^ (k + 1) := by
        have := Nat.one_le_two_pow (n := k)
        omega
      have hd : 2 ^ (k + 1) / 2 = 2 ^ k := by
        rw [Nat.pow_succ, Nat.mul_div_cancel _ (by decide)]
      simp only [log2Nat, if_pos h2, hd]
      rw [ih f (by omega)]

theorem log2_two_pow (k : Nat) : log2 ((2 : Int) ^ k) = (k : Int) := by
  unfold log2
  have h : ((2 : Int) ^ k).toNat = 2 ^ k := by
    have : ((2 : Int) ^ k) = ((2 ^ k : Nat) : Int) := by push_cast; rfl
    rw [this, Int.toNat_ofNat]
  rw [h, log2Nat_two_pow k (2 ^ k) (Nat.le_of_lt (Nat.lt_two_pow k))]

theorem setAt_eq (x : Poly N) (idx v : Int) (h : 0 ≤ idx ∧ idx < (N : Int)) :
    x.setAt idx v = some ⟨fun k => if (k.val : Int) = idx then v else x.coeff k⟩ := by
  unfold Poly.setAt
  rw [if_pos h]

theorem getAt_eq (x : Poly N) (j : Fin N) : x.getAt (j.val : Int) = some (x.coeff j) := by
  unfold Poly.getAt
  have h : 0 ≤ (j.val : Int) ∧ (j.val : Int) < (N : Int) := ⟨by omega, by
    have := j.isLt
    omega⟩
  rw [dif_pos h]
  congr 2

/-- The loop of `encode`: after `n` writes with stride `G`, coefficient
`i * G` holds `f[i].r` for `i < n`, every other coefficient is `0`, and the
index stands at `n * G`. -/
theorem encode_loop (f : Int → CZZ) (G : Nat) (hG : 0 < G) (n : Nat) (hn : n * G ≤ N) :
    (List.range n).foldlM
      (fun (st : Poly N × Int) (i : Nat) =>
        (st.1.setAt st.2 (f (i : Int)).r).map fun mx => (mx, st.2 + (G : Int)))
      ((0 : Poly N), (0 : Int))
    = some (⟨fun j => if j.val % G = 0 ∧ j.val / G < n then (f ((j.val / G : Nat) : Int)).r
        else 0⟩, ((n * G : Nat) : Int)) := by
  induction n with
  | zero =>
    simp only [List.range_zero, List.foldlM_nil, Nat.not_lt_zero, and_false, if_false,
      Nat.zero_mul, Nat.cast_zero]
    rfl
  | succ n ih =>
    have hn' : n * G ≤ N := by
      have : n * G ≤ (n + 1) * G := Nat.mul_le_mul_right G (Nat.le_succ n)
      omega
    have hlt : n * G < N := by
      have : (n + 1) * G = n * G + G := by ring
      omega
    rw [List.range_succ, List.foldlM_append, ih hn']
    simp only [Option.bind_eq_bind, Option.some_bind, List.foldlM_cons, List.foldlM_nil]
    rw [setAt_eq _ _ _ ⟨by omega, by exact_mod_cast hlt⟩]
    simp only [Option.map_some', Option.bind_eq_bind, Option.some_bind, Option.pure_def,
      Option.some.injEq, Prod.mk.injEq]
    constructor
    · ext j
      show (if (j.val : Int) = ((n * G : Nat) : Int) then (f (n : Int)).r
          else if j.val % G = 0 ∧ j.val / G < n then (f ((j.val / G : Nat) : Int)).r else 0)
        = if j.val % G = 0 ∧ j.val / G < n + 1 then (f ((j.val / G : Nat) : Int)).r else 0
      by_cases hj : (j.val : Int) = ((n * G : Nat) : Int)
      · have hj' : j.val = n * G := by exact_mod_cast hj
        have h1 : j.val % G = 0 := by rw [hj']; exact Nat.mul_mod_left n G
        have h2 : j.val / G = n := by rw [hj']; exact Nat.mul_div_cancel n hG
        rw [if_pos hj, if_pos ⟨h1, by omega⟩, h2]
      · have hj' : j.val ≠ n * G := fun e => hj (by exact_mod_cast e)
        rw [if_neg hj]
        by_cases hc : j.val % G = 0 ∧ j.val / G < n
        · rw [if_pos hc, if_pos ⟨hc.1, by omega⟩]
        · rw [if_neg hc, if_neg]
          intro hc'
          apply hc
          refine ⟨hc'.1, ?_⟩
          have hne : j.val / G ≠ n := by
            intro e
            apply hj'
            have := Nat.div_add_mod j.val G
            rw [hc'.1, e] at this
            rw [← this]
            ring
          omega
    · push_cast
      ring

/-- The loop of `decode`: when the `n` reads at stride `G` succeed and
`trueValue` ends on each value read, entry `i < n` of the array holds the
`i`-th result and the index stands at `n * G`. -/
theorem decode_loop (mx : Poly N) (fuel : Nat) (q : Int) (G n : Nat) (f : Nat → Int)
    (c : Nat → CZZ) (init : Int → CZZ)
    (hread : ∀ i : Nat, i < n → mx.getAt ((i * G : Nat) : Int) = some (f i))
    (htv : ∀ i : Nat, i < n → Scheme.trueValueCZZ fuel ⟨f i, 0⟩ q = some (c i)) :
    (List.range n).foldlM
      (fun (st : (Int → CZZ) × Int) (i : Nat) =>
        (mx.getAt st.2).bind fun r =>
        (Scheme.trueValueCZZ fuel ⟨r, 0⟩ q).map fun w =>
        (Function.update st.1 (i : Int) w, st.2 + (G : Int)))
      (init, (0 : Int))
    = some ((fun x => if 0 ≤ x ∧ x < (n : Int) then c x.toNat else init x),
        ((n * G : Nat) : Int)) := by
  induction n with
  | zero =>
    simp only [List.range_zero, List.foldlM_nil, Nat.zero_mul, Nat.cast_zero]
    have : (fun x : Int => if 0 ≤ x ∧ x < 0 then c x.toNat else init x) = init := by
      funext x
      rw [if_neg (by omega)]
    rw [this]
    rfl
  | succ n ih =>
    rw [List.range_succ, List.foldlM_append,
      ih (fun i hi => hread i (by omega)) (fun i hi => htv i (by omega))]
    simp only [Option.bind_eq_bind, Option.some_bind, List.foldlM_cons, List.foldlM_nil]
    rw [hread n (by omega)]
    simp only [Option.some_bind]
    rw [htv n (by omega)]
    simp only [Option.map_some', Option.some_bind, Option.pure_def, Option.some.injEq,
      Prod.mk.injEq]
    constructor
    · funext x
      by_cases hx : x = (n : Int)
      · subst hx
        rw [Function.update_same, if_pos ⟨by omega, by push_cast; omega⟩, Int.toNat_ofNat]
      · rw [Function.update_noteq hx]
        by_cases hc : 0 ≤ x ∧ x < (n : Int)
        · rw [if_pos hc, if_pos ⟨hc.1, by push_cast; omega⟩]
        · rw [if_neg hc, if_neg (by push_cast; omega)]
    · push_cast
      ring

theorem trueValue_zero (fuel : Nat) (q : Int) (hq : 0 < q) :
    Scheme.trueValue fuel 0 q = some 0 := by
  have h1 : ¬ (2 * (0 : Int) > q) := by omega
  have h2 : ¬ (2 * (0 : Int) < -q) := by omega
  cases fuel <;>
    simp only [Scheme.trueValue, Scheme.trueValueSubLoop, Scheme.trueValueAddLoop, if_neg h1,
      if_neg h2, Option.some_bind]

theorem exists_bound (g : Nat → Nat) (n : Nat) : ∃ B : Nat, ∀ i : Nat, i < n → g i ≤ B := by
  induction n with
  | zero => exact ⟨0, fun i hi => absurd hi (Nat.not_lt_zero i)⟩
  | succ n ih =>
    obtain ⟨B, hB⟩ := ih
    refine ⟨max B (g n), fun i hi => ?_⟩
    by_cases h : i = n
    · subst h
      exact le_max_right _ _
    · exact le_trans (hB i (by omega)) (le_max_left _ _)

/-- The message `encode` returns for `slots = 2 ^ k` with `2 * slots ≤ N`, in
closed form. -/
theorem encode_eq (fftSpecialInv : (Int → CZZ) → Int → Int → (Int → CZZ)) (params : Params)
    (vals : Int → CZZ) (k : Nat) (hN : 2 * 2 ^ k ≤ N) :
    Scheme.encode fftSpecialInv params vals ((2 : Int) ^ k)
    = some (⟨⟨fun (j : Fin N) =>
        if j.val % (N / 2 ^ (k + 1)) = 0 ∧ j.val / (N / 2 ^ (k + 1)) < 2 ^ (k + 1) then
          (fftSpecialInv vals ((2 : Int) ^ k * 2) params.logp
            ((j.val / (N / 2 ^ (k + 1)) : Nat) : Int)).r
        else 0⟩, (2 : Int) ^ k, 1⟩ : Message N) := by
  have hpow : 2 ^ (k + 1) = 2 * 2 ^ k := by rw [pow_succ]; ring
  have hG : 0 < N / 2 ^ (k + 1) := Nat.div_pos (by omega) (by positivity)
  have hn : 2 ^ (k + 1) * (N / 2 ^ (k + 1)) ≤ N := Nat.mul_div_le N (2 ^ (k + 1))
  have h1 : ((2 : Int) ^ k * 2).toNat = 2 ^ (k + 1) := by
    have : ((2 : Int) ^ k * 2) = ((2 ^ (k + 1) : Nat) : Int) := by push_cast; ring
    rw [this, Int.toNat_ofNat]
  have h2 : (log2 ((2 : Int) ^ k) + 1).toNat = k + 1 := by
    rw [log2_two_pow]
    omega
  have h3 : (N : Int) >>> (k + 1) = ((N / 2 ^ (k + 1) : Nat) : Int) := by
    rw [Int.shiftRight_eq_div_pow]
    push_cast
    rfl
  unfold Scheme.encode
  simp only [h1, h2, h3]
  rw [encode_loop _ _ hG _ hn]
  rfl

/-- The array `decode` builds for a message of `2 ^ k` slots whose reads at
stride `N / 2 ^ (k + 1)` succeed, in closed form. -/
theorem decodeValues_eq (params : Params) (msg : Message N) (k : Nat)
    (hs : msg.slots = (2 : Int) ^ k) (fuel : Nat) (f : Nat → Int)
    (hread : ∀ i : Nat, i < 2 ^ (k + 1) →
      msg.mx.getAt ((i * (N / 2 ^ (k + 1)) : Nat) : Int) = some (f i))
    (hq : 0 < Scheme.getqi params msg.level)
    (hfuel : ∀ i : Nat, i < 2 ^ (k + 1) → (f i).natAbs ≤ fuel) :
    Scheme.decodeValues fuel params msg
    = some (fun x => if 0 ≤ x ∧ x < ((2 ^ (k + 1) : Nat) : Int) then
        ⟨(Scheme.trueValue fuel (f x.toNat) (Scheme.getqi params msg.level)).getD 0, 0⟩
      else ⟨0, 0⟩) := by
  have h1 : ((2 : Int) ^ k * 2).toNat = 2 ^ (k + 1) := by
    have : ((2 : Int) ^ k * 2) = ((2 ^ (k + 1) : Nat) : Int) := by push_cast; ring
    rw [this, Int.toNat_ofNat]
  have h3 : Int.tdiv (N : Int) ((2 : Int) ^ k * 2) = ((N / 2 ^ (k + 1) : Nat) : Int) := by
    rw [Int.tdiv_eq_ediv (by omega) (by positivity)]
    push_cast
    rfl
  unfold Scheme.decodeValues
  simp only [hs, h1, h3]
  rw [decode_loop msg.mx fuel (Scheme.getqi params msg.level) (N / 2 ^ (k + 1)) (2 ^ (k + 1)) f
    (fun i => ⟨(Scheme.trueValue fuel (f i) (Scheme.getqi params msg.level)).getD 0, 0⟩)
    (fun _ => ⟨0, 0⟩) hread]
  · rfl
  · intro i hi
    obtain ⟨r, hr⟩ := trueValue_ends _ hq fuel (f i) (hfuel i hi)
    rw [trueValueCZZ_eq fuel ⟨f i, 0⟩ _ r 0 hr (trueValue_zero fuel _ hq), hr]
    rfl

/-- C15: for every power-of-two slot count `slots = 2 ^ k ≤ N / 2` and every
grouped vector `vals`, `encode(vals, slots)` returns a message with `slots`
slots whose polynomial (of `N` coefficients) holds `fftInv[i].r` at index
`i · (N / (2·slots))` for each `i < 2·slots` and `0` at every other index, where
`fftInv = fftSpecialInv(vals, 2·slots, ksiPows, logp)`; for a modulus
`q = getqi(level of the message) > 0`, `decode` of that message ends (as soon as
`trueValue` is allowed `|fftInv[i].r|` iterations for each `i`, and such a
number exists) and the `i`-th value it hands to `fftSpecial` is the `CZZ`
`(trueValue(fftInv[i].r, q), 0)`, which is `(fftInv[i].r, 0)` whenever
`−q < 2·fftInv[i].r ≤ q`. -/
theorem encode_decode (fftSpecialInv : (Int → CZZ) → Int → Int → (Int → CZZ))
    (params : Params) (vals : Int → CZZ) (slots : Int) (k : Nat)
    (hk : slots = 2 ^ k) (hN : slots ≤ (N : Int) / 2) (hq : 0 < Scheme.getqi params 1) :
    ∃ msg : Message N,
      Scheme.encode fftSpecialInv params vals slots = some msg
      ∧ msg.slots = slots
      ∧ (∀ i : Nat, i < (slots * 2).toNat →
          msg.mx.getAt ((i : Int) * ((N : Int) / (slots * 2)))
            = some (fftSpecialInv vals (slots * 2) params.logp (i : Int)).r)
      ∧ (∀ j : Fin N,
          (∀ i : Nat, i < (slots * 2).toNat → (j.val : Int) ≠ (i : Int) * ((N : Int) / (slots * 2))) →
          msg.mx.coeff j = 0)
      ∧ (∃ fuel : Nat, ∀ i : Nat, i < (slots * 2).toNat →
          (fftSpecialInv vals (slots * 2) params.logp (i : Int)).r.natAbs ≤ fuel)
      ∧ (∀ fuel : Nat,
          (∀ i : Nat, i < (slots * 2).toNat →
            (fftSpecialInv vals (slots * 2) params.logp (i : Int)).r.natAbs ≤ fuel) →
          ∃ fftinv : Int → CZZ,
            Scheme.decodeValues fuel params msg = some fftinv
            ∧ (∀ fftSpecial : (Int → CZZ) → Int → Int → (Int → CZZ),
                Scheme.decode fftSpecial fuel params msg
                  = some (fftSpecial fftinv (slots * 2) params.logp))
            ∧ ∀ i : Nat, i < (slots * 2).toNat →
                ∃ r : Int,
                  Scheme.trueValue fuel (fftSpecialInv vals (slots * 2) params.logp (i : Int)).r
                      (Scheme.getqi params msg.level) = some r
                  ∧ fftinv (i : Int) = ⟨r, 0⟩
                  ∧ (-(Scheme.getqi params msg.level)
                        < 2 * (fftSpecialInv vals (slots * 2) params.logp (i : Int)).r →
                      2 * (fftSpecialInv vals (slots * 2) params.logp (i : Int)).r
                        ≤ Scheme.getqi params msg.level →
                      fftinv (i : Int)
                        = ⟨(fftSpecialInv vals (slots * 2) params.logp (i : Int)).r, 0⟩)) := by
  subst hk
  have hN' : 2 * 2 ^ k ≤ N := by
    have h : 2 * (2 : Int) ^ k ≤ (N : Int) := by
      generalize (2 : Int) ^ k = s at hN
      omega
    exact_mod_cast h
  have h1 : ((2 : Int) ^ k * 2).toNat = 2 ^ (k + 1) := by
    have : ((2 : Int) ^ k * 2) = ((2 ^ (k + 1) : Nat) : Int) := by push_cast; ring
    rw [this, Int.toNat_ofNat]
  have hgap : (N : Int) / ((2 : Int) ^ k * 2) = ((N / 2 ^ (k + 1) : Nat) : Int) := by
    push_cast
    rfl
  have hG : 0 < N / 2 ^ (k + 1) := by
    have hpow : 2 ^ (k + 1) = 2 * 2 ^ k := by rw [pow_succ]; ring
    exact Nat.div_pos (by omega) (by positivity)
  have hidx : ∀ i : Nat, i < 2 ^ (k + 1) → i * (N / 2 ^ (k + 1)) < N := by
    intro i hi
    calc i * (N / 2 ^ (k + 1)) < 2 ^ (k + 1) * (N / 2 ^ (k + 1)) :=
          Nat.mul_lt_mul_of_pos_right hi hG
      _ ≤ N := Nat.mul_div_le N (2 ^ (k + 1))
  have hread : ∀ i : Nat, i < 2 ^ (k + 1) →
      Poly.getAt (⟨fun (j : Fin N) =>
        if j.val % (N / 2 ^ (k + 1)) = 0 ∧ j.val / (N / 2 ^ (k + 1)) < 2 ^ (k + 1) then
          (fftSpecialInv vals ((2 : Int) ^ k * 2) params.logp
            ((j.val / (N / 2 ^ (k + 1)) : Nat) : Int)).r
        else 0⟩ : Poly N) ((i * (N / 2 ^ (k + 1)) : Nat) : Int)
      = some (fftSpecialInv vals ((2 : Int) ^ k * 2) params.logp (i : Int)).r := by
    intro i hi
    refine (getAt_eq _ ⟨i * (N / 2 ^ (k + 1)), hidx i hi⟩).trans ?_
    show some (if (i * (N / 2 ^ (k + 1))) % (N / 2 ^ (k + 1)) = 0
        ∧ (i * (N / 2 ^ (k + 1))) / (N / 2 ^ (k + 1)) < 2 ^ (k + 1) then
          (fftSpecialInv vals ((2 : Int) ^ k * 2) params.logp
            (((i * (N / 2 ^ (k + 1))) / (N / 2 ^ (k + 1)) : Nat) : Int)).r
        else 0) = _
    rw [if_pos ⟨Nat.mul_mod_left i _, by rw [Nat.mul_div_cancel i hG]; exact hi⟩,
      Nat.mul_div_cancel i hG]
  refine ⟨_, encode_eq fftSpecialInv params vals k hN', rfl, ?_, ?_, ?_, ?_⟩
  · intro i hi
    rw [h1] at hi
    rw [hgap]
    have hc : (i : Int) * ((N / 2 ^ (k + 1) : Nat) : Int)
        = ((i * (N / 2 ^ (k + 1)) : Nat) : Int) := by push_cast; rfl
    rw [hc]
    exact hread i hi
  · intro j hj
    rw [h1, hgap] at hj
    show (if j.val % (N / 2 ^ (k + 1)) = 0 ∧ j.val / (N / 2 ^ (k + 1)) < 2 ^ (k + 1) then
          (fftSpecialInv vals ((2 : Int) ^ k * 2) params.logp
            ((j.val / (N / 2 ^ (k + 1)) : Nat) : Int)).r
        else 0) = 0
    rw [if_neg]
    rintro ⟨hmod, hdiv⟩
    apply hj (j.val / (N / 2 ^ (k + 1))) hdiv
    have h := Nat.div_add_mod j.val (N / 2 ^ (k + 1))
    rw [hmod, Nat.add_zero] at h
    have h' : j.val = j.val / (N / 2 ^ (k + 1)) * (N / 2 ^ (k + 1)) := by
      rw [Nat.mul_comm]
      exact h.symm
    exact_mod_cast h'
  · rw [h1]
    exact exists_bound
      (fun i => (fftSpecialInv vals ((2 : Int) ^ k * 2) params.logp (i : Int)).r.natAbs)
      (2 ^ (k + 1))
  · intro fuel hfuel
    rw [h1] at hfuel ⊢
    have hdec := decodeValues_eq params
      (⟨⟨fun (j : Fin N) =>
        if j.val % (N / 2 ^ (k + 1)) = 0 ∧ j.val / (N / 2 ^ (k + 1)) < 2 ^ (k + 1) then
          (fftSpecialInv vals ((2 : Int) ^ k * 2) params.logp
            ((j.val / (N / 2 ^ (k + 1)) : Nat) : Int)).r
        else 0⟩, (2 : Int) ^ k, 1⟩ : Message N) k rfl fuel
      (fun i => (fftSpecialInv vals ((2 : Int) ^ k * 2) params.logp (i : Int)).r)
      hread hq hfuel
    refine ⟨_, hdec, ?_, ?_⟩
    · intro fftSpecial
      unfold Scheme.decode
      rw [hdec]
      rfl
    · intro i hi
      obtain ⟨r, hr⟩ := trueValue_ends _ hq fuel
        (fftSpecialInv vals ((2 : Int) ^ k * 2) params.logp (i : Int)).r (hfuel i hi)
      have hcond : 0 ≤ (i : Int) ∧ (i : Int) < ((2 ^ (k + 1) : Nat) : Int) :=
        ⟨by omega, by exact_mod_cast hi⟩
      dsimp only
      rw [if_pos hcond, Int.toNat_ofNat, hr]
      refine ⟨r, rfl, rfl, ?_⟩
      intro hlo hhi
      have hsame := (trueValue_sound _ hq fuel _ r hr).2.2.2 (by omega) hhi
      rw [hsame]
      rfl

theorem encode_decode_witness :
    (2 : Int) = 2 ^ 1 ∧ (2 : Int) ≤ ((4 : Nat) : Int) / 2 ∧ 0 < Scheme.getqi exParams 1
    ∧ ((Scheme.encode exFftSpecialInv exParams exVals 2 : Option (Message 4)).map
        fun msg => ([msg.mx.coeff 0, msg.mx.coeff 1, msg.mx.coeff 2, msg.mx.coeff 3],
          msg.slots, msg.level)) = some ([-150, -100, -50, 0], 2, 1)
    ∧ (Scheme.decodeValues 150 exParams (⟨⟨![-150, -100, -50, 0]⟩, 2, 1⟩ : Message 4)).map
        (fun a => [a 0, a 1, a 2, a 3]) = some [⟨106, 0⟩, ⟨-100, 0⟩, ⟨-50, 0⟩, ⟨0, 0⟩]
    ∧ ∃ msg : Message 4, Scheme.encode exFftSpecialInv exParams exVals 2 = some msg
        ∧ msg.slots = 2 :=
  ⟨by decide, by decide, by decide, by decide, by decide,
    (encode_decode exFftSpecialInv exParams exVals 2 1 (by decide) (by decide)
      (by decide)).imp fun _ h => ⟨h.1, h.2.1⟩⟩

end Claims

end HEAAN
